import Mathlib

/-!
A verification development for the optimesh mesh-smoothing library
(`optimesh/helpers.py`, `optimesh/odt.py`).

The numeric code is embedded over the reals: numpy arrays become Lean
lists, elementwise numpy operations become index-wise maps over
`List.range`, and `numpy.bincount`-style scatter-add accumulation becomes
the `bincountM` function below.  The mesh-geometry collaborator
(`meshplex`) is external to the repository; its derived quantities
(circumcenters, barycenters, volumes, inradii, Delaunay flipping) are
modelled as an abstract `MeshOps` record, while the purely combinatorial
quantities (boundary edges, boundary points) are computed from the cell
connectivity exactly as the library's documentation describes them.
-/

set_option maxHeartbeats 1000000

/-- A 2-D point / vector, as used by every array in the code. -/
abbrev Pt : Type := ℝ × ℝ

/-- A triangle cell: the three point indices of one row of
`mesh.cells["points"]`. -/
abbrev Cell : Type := ℕ × ℕ × ℕ

/-- First vertex of a cell (column 0 of `cells["points"]`). -/
def cellA (c : Cell) : ℕ := c.1

/-- Second vertex of a cell (column 1 of `cells["points"]`). -/
def cellB (c : Cell) : ℕ := c.2.1

/-- Third vertex of a cell (column 2 of `cells["points"]`). -/
def cellC (c : Cell) : ℕ := c.2.2

/-- Squared Euclidean norm of a 2-D vector: the per-row value of
`numpy.einsum("ij,ij->i", d, d)`. -/
def norm2 (d : Pt) : ℝ := d.1 ^ 2 + d.2 ^ 2

/-- Elementwise addition of two equally long arrays (numpy `+=`). -/
def listAdd {M : Type} [Add M] (a b : List M) : List M := List.zipWith (· + ·) a b

/-- `numpy.bincount(idx, vals, minlength := n)`: entry `p` accumulates the
sum of all `vals[j]` with `idx[j] = p`.  Generalised over the value
monoid so the same accumulator serves scalar and 2-D payloads. -/
def bincountM {M : Type} [AddCommMonoid M] (n : ℕ) (idx : List ℕ) (vals : List M) : List M :=
  (List.range n).map fun p => ((idx.zip vals).map fun q => if q.1 = p then q.2 else 0).sum

/-- Componentwise division of a 2-D value by a scalar
(one row of `new_points /= omega[:, None]`). -/
noncomputable def divPt (v : Pt) (s : ℝ) : Pt := (v.1 / s, v.2 / s)

/-- `numpy.max` over a nonempty array (0 for the empty array, on which
numpy would raise). -/
def maxD : List ℝ → ℝ
  | [] => 0
  | x :: xs => xs.foldl max x

/-- The two (unordered, here: sorted) endpoint pairs of a cell's three
edges, as the mesh collaborator derives them from connectivity. -/
def canonEdge (x y : ℕ) : ℕ × ℕ := if x ≤ y then (x, y) else (y, x)

/-- The three edges of one triangle cell. -/
def edgesOfCell (c : Cell) : List (ℕ × ℕ) :=
  [canonEdge (cellA c) (cellB c), canonEdge (cellB c) (cellC c), canonEdge (cellC c) (cellA c)]

/-- How many (cell, edge-slot) incidences an edge has in the mesh. -/
def edgeMult (cells : List Cell) (e : ℕ × ℕ) : ℕ :=
  (cells.flatMap edgesOfCell).count e

/-- A boundary edge belongs to exactly one cell (meshplex `is_boundary_edge`,
derived from connectivity). -/
def isBoundaryEdge (cells : List Cell) (e : ℕ × ℕ) : Bool :=
  edgeMult cells e == 1

/-- A boundary point lies on some boundary edge (meshplex
`is_boundary_point`, derived from connectivity). -/
def isBoundaryPt (cells : List Cell) (p : ℕ) : Bool :=
  cells.any fun c =>
    (edgesOfCell c).any fun e => isBoundaryEdge cells e && (e.1 == p || e.2 == p)

/-- `mesh.edges_cells[1][:, 0]`: for every boundary edge, the id of its
unique adjacent cell (with one entry per boundary edge, so a cell with
two boundary edges appears twice, as in the numpy array). -/
def boundaryCellIds (cells : List Cell) : List ℕ :=
  (List.range cells.length).flatMap fun j =>
    ((edgesOfCell (cells.getD j (0, 0, 0))).filter fun e => isBoundaryEdge cells e).map fun _ => j

/-- The density-preserving variant's boundary-cell test
(`numpy.sum(mesh.is_boundary_point[cells], axis=1) == 2`). -/
def dpIsBoundaryCell (cells : List Cell) (c : Cell) : Bool :=
  ((if isBoundaryPt cells (cellA c) then 1 else 0) +
   (if isBoundaryPt cells (cellB c) then 1 else 0) +
   (if isBoundaryPt cells (cellC c) then 1 else 0) : ℕ) == 2

/-- Interior point indices (`mesh.is_interior_point`), in increasing
order: the points that are not boundary points. -/
def interiorIdx (n : ℕ) (cells : List Cell) : List ℕ :=
  (List.range n).filter fun i => !(isBoundaryPt cells i)

/-- The number of occurrences of point index `i` in the vertex triple of
cell `c`. -/
def multP (i : ℕ) (c : Cell) : ℕ :=
  (if cellA c = i then 1 else 0) + (if cellB c = i then 1 else 0) + (if cellC c = i then 1 else 0)

/-- `optimesh.helpers.get_new_points_averaged`: per-cell reference points,
optionally scaled by per-cell weights, are scatter-added to each of the
cell's three vertices (one `numpy.bincount` per vertex column), the same
accumulation produces the per-point normaliser `omega` (a plain count
when no weights are given), and the accumulated points are divided by it
componentwise. -/
noncomputable def get_new_points_averaged (pts : List Pt) (cells : List Cell)
    (rp : List Pt) (weights : Option (List ℝ)) : List Pt :=
  let scaled : List Pt :=
    match weights with
    | none => rp
    | some w => (rp.zip w).map fun q => q.2 • q.1
  let n := pts.length
  let np :=
    listAdd (listAdd (bincountM n (cells.map cellA) scaled) (bincountM n (cells.map cellB) scaled))
      (bincountM n (cells.map cellC) scaled)
  let om : List ℝ :=
    match weights with
    | none =>
        listAdd
          (listAdd (bincountM n (cells.map cellA) (cells.map fun _ => (1 : ℝ)))
            (bincountM n (cells.map cellB) (cells.map fun _ => (1 : ℝ))))
          (bincountM n (cells.map cellC) (cells.map fun _ => (1 : ℝ)))
    | some w =>
        listAdd (listAdd (bincountM n (cells.map cellA) w) (bincountM n (cells.map cellB) w))
          (bincountM n (cells.map cellC) w)
  (List.range n).map fun p => divPt (np.getD p 0) (om.getD p 0)

/-- The averaging contract as the spec words it: for each point, the
weight-normalised sum of the per-cell reference values over the cells
incident to that point, incidence counted with multiplicity, weight 1
when no weights are supplied. -/
noncomputable def specAveraged (pts : List Pt) (cells : List Cell)
    (rp : List Pt) (weights : Option (List ℝ)) : List Pt :=
  let w : ℕ → ℝ := fun j => match weights with | none => 1 | some ws => ws.getD j 0
  (List.range pts.length).map fun p =>
    divPt
      (((List.range cells.length).map fun j =>
        ((multP p (cells.getD j (0, 0, 0)) : ℝ) * w j) • rp.getD j 0).sum)
      (((List.range cells.length).map fun j =>
        (multP p (cells.getD j (0, 0, 0)) : ℝ) * w j).sum)

/-- Triangle area: half the absolute cross product of two edge vectors
(meshplex `cell_volumes`, external, modelled by its standard formula). -/
noncomputable def cellVolume (a b c : Pt) : ℝ :=
  |(b.1 - a.1) * (c.2 - a.2) - (b.2 - a.2) * (c.1 - a.1)| / 2

/-- The volume of cell `c` of the mesh given by `pts`. -/
noncomputable def volOf (pts : List Pt) (c : Cell) : ℝ :=
  cellVolume (pts.getD (cellA c) 0) (pts.getD (cellB c) 0) (pts.getD (cellC c) 0)

/-- All cell volumes. -/
noncomputable def cellVols (pts : List Pt) (cells : List Cell) : List ℝ :=
  cells.map (volOf pts)

/-- `star_volume` of `optimesh.odt.energy`: three `numpy.bincount` passes
over the vertex columns, accumulating cell volumes (uniform density) or
plain counts (density-preserving). -/
noncomputable def starVolume (pts : List Pt) (cells : List Cell) (uniform : Bool) : List ℝ :=
  let vals := if uniform then cellVols pts cells else cells.map fun _ => (1 : ℝ)
  listAdd
    (listAdd (bincountM pts.length (cells.map cellA) vals)
      (bincountM pts.length (cells.map cellB) vals))
    (bincountM pts.length (cells.map cellC) vals)

/-- The linear term `1/(d+1) * dot(star_volume, ||x||^2)` of the ODT
energy, with `d = 2`. -/
noncomputable def energyLinearTerm (pts : List Pt) (cells : List Cell) (uniform : Bool) : ℝ :=
  (1 / 3) *
    ((List.range pts.length).map fun p =>
      (starVolume pts cells uniform).getD p 0 * norm2 (pts.getD p 0)).sum

/-- Edge midpoint. -/
noncomputable def midPt (u v : Pt) : Pt := ((u.1 + v.1) / 2, (u.2 + v.2) / 2)

/-- Modelled from the spec: the repository evaluates the integral term
with `quadpy.t2.get_good_scheme(2)` (an external quadrature library),
"a degree-2 numerical quadrature rule per triangle".  Every degree-2
rule is exact on the quadratic integrand `x^2 + y^2`; we model it by the
classical three-edge-midpoint rule with weights 1/3, which realises that
exact value. -/
noncomputable def quadSq (a b c : Pt) : ℝ :=
  cellVolume a b c * ((norm2 (midPt a b) + norm2 (midPt b c) + norm2 (midPt c a)) / 3)

/-- Per-cell quadrature value of `||x||^2` over cell `c`. -/
noncomputable def quadOf (pts : List Pt) (c : Cell) : ℝ :=
  quadSq (pts.getD (cellA c) 0) (pts.getD (cellB c) 0) (pts.getD (cellC c) 0)

/-- The integral term of `optimesh.odt.energy`: the quadrature values,
summed (uniform density) or multiplied by `rho = 1/cell_volumes` and
summed (density-preserving). -/
noncomputable def energyQuadTerm (pts : List Pt) (cells : List Cell) (uniform : Bool) : ℝ :=
  if uniform then (cells.map (quadOf pts)).sum
  else (cells.map fun c => quadOf pts c * (1 / volOf pts c)).sum

/-- `optimesh.odt.energy`: linear term minus integral term. -/
noncomputable def energyODT (pts : List Pt) (cells : List Cell) (uniform : Bool) : ℝ :=
  energyLinearTerm pts cells uniform - energyQuadTerm pts cells uniform

/-- Mesh state: the point array, the connectivity, and the mesh
collaborator's cached circumcenter array (`mesh.cell_circumcenters` is a
cached property of the meshplex mesh object; mutating the array it hands
out mutates this cache). -/
structure MeshState : Type where
  points : List Pt
  cells : List Cell
  ccCache : List Pt

/-- The external meshplex collaborator: derived geometric quantities as
functions of the mesh state, plus the Delaunay-flip primitive. -/
structure MeshOps : Type where
  inradius : MeshState → List ℝ
  circum : MeshState → List Pt
  bary : MeshState → List Pt
  vols : MeshState → List ℝ
  flip : MeshState → MeshState

/-- The collaborator contract the core relies on (spec section 6):
flipping restores Delaunayness by changing connectivity only — it never
moves points, and it preserves the boundary-point classification (only
interior edges are flippable); recomputed circumcenters depend only on
points and cells, not on the cache. -/
structure LawfulOps (ops : MeshOps) : Prop where
  flip_points : ∀ m, (ops.flip m).points = m.points
  flip_boundary : ∀ m i, isBoundaryPt (ops.flip m).cells i = isBoundaryPt m.cells i
  circum_congr : ∀ m m', m.points = m'.points → m.cells = m'.cells → ops.circum m = ops.circum m'

/-- `mesh.update_values()`: recompute the cached derived quantities from
the current points (here: refresh the circumcenter cache). -/
def updateValues (ops : MeshOps) (m : MeshState) : MeshState :=
  { m with ccCache := ops.circum m }

/-- A point-update rule: consumes the mesh state, returns the candidate
point array together with the mesh state it leaves behind (the state
component records cache mutations such as the in-place circumcenter
overwrite of the uniform ODT rule). -/
abbrev GNP : Type := MeshState → List Pt × MeshState

/-- `cc[ids] = bc[ids]`: numpy fancy assignment of selected rows. -/
def substList (base repl : List Pt) (ids : List ℕ) : List Pt :=
  ids.foldl (fun acc i => acc.set i (repl.getD i 0)) base

/-- The shared boundary-point postprocessing of both ODT fixed-point
rules: with no `boundary_step`, boundary points are reset to their
current positions; otherwise they are mapped through the caller's
projection. -/
def applyBoundary (bstep : Option (Pt → Pt)) (m : MeshState) (X : List Pt) : List Pt :=
  (List.range m.points.length).map fun i =>
    match bstep with
    | none => if isBoundaryPt m.cells i then m.points.getD i 0 else X.getD i 0
    | some f => if isBoundaryPt m.cells i then f (X.getD i 0) else X.getD i 0

/-- The per-cell reference array of `fixed_point_uniform`: the cached
circumcenter array with the rows of the cells listed in
`edges_cells[1][:, 0]` overwritten by barycenters. -/
noncomputable def odtUniformRef (ops : MeshOps) (m : MeshState) : List Pt :=
  substList m.ccCache (ops.bary m) (boundaryCellIds m.cells)

/-- The per-cell reference array of `fixed_point_density_preserving`: a
copy of the circumcenter array with the rows of the cells having
exactly two boundary vertices overwritten by barycenters. -/
noncomputable def odtDPRef (ops : MeshOps) (m : MeshState) : List Pt :=
  (List.range m.cells.length).map fun j =>
    if dpIsBoundaryCell m.cells (m.cells.getD j (0, 0, 0)) then (ops.bary m).getD j 0
    else m.ccCache.getD j 0

/-- The update rule of `optimesh.odt.fixed_point_uniform`: bind the
cached circumcenter array (no copy), overwrite the rows of the cells
listed in `edges_cells[1][:, 0]` with barycenters (this writes through
to the mesh's cache, recorded in the returned state), average with cell
volumes as weights, then apply the boundary policy. -/
noncomputable def odtUniformGNP (ops : MeshOps) (bstep : Option (Pt → Pt)) : GNP := fun m =>
  let cc' := odtUniformRef ops m
  let X := get_new_points_averaged m.points m.cells cc' (some (ops.vols m))
  (applyBoundary bstep m X, { m with ccCache := cc' })

/-- The update rule of `optimesh.odt.fixed_point_density_preserving`:
copy the circumcenter array (`.copy()`, so the cache is untouched),
overwrite the rows of cells with exactly two boundary vertices with
barycenters, average without weights, then apply the boundary policy. -/
noncomputable def odtDPGNP (ops : MeshOps) (bstep : Option (Pt → Pt)) : GNP := fun m =>
  let X := get_new_points_averaged m.points m.cells (odtDPRef ops m) none
  (applyBoundary bstep m X, m)

/-- The inradii of the cells incident to point `i` (the values over
which `numpy.minimum.at` accumulates for entry `i`). -/
def incidentInradii (cells : List Cell) (inr : List ℝ) (i : ℕ) : List ℝ :=
  ((cells.zip inr).filter fun q =>
    cellA q.1 == i || cellB q.1 == i || cellC q.1 == i).map fun q => q.2

/-- The runner's per-point step bound `max_step`: half the minimum
inradius over the point's incident cells; `none` models the untouched
`numpy.inf` initial value of a point belonging to no cell. -/
noncomputable def maxStepAt (cells : List Cell) (inr : List ℝ) (i : ℕ) : Option ℝ :=
  (incidentInradii cells inr i).min?.map fun r => 0.5 * r

/-- The runner's step clamp (`helpers.runner`, the `idx` mask and
rescale): a displacement whose length exceeds the bound is scaled by
`max_step / step_length`; an infinite bound (`none`) never exceeds. -/
noncomputable def clampDiffAt (d : Pt) (ms : Option ℝ) : Pt :=
  match ms with
  | none => d
  | some b => if Real.sqrt (norm2 d) > b then (b / Real.sqrt (norm2 d)) • d else d

/-- An implicit surface as the runner consumes it: a level-set function
and its gradient, evaluated pointwise. -/
structure ImplSurface : Type where
  f : Pt → ℝ
  grad : Pt → Pt

/-- One sweep of the boundary projection:
`points -= grad * (fval / grad_dot_grad)`, simultaneously for all
points. -/
noncomputable def projStep (S : ImplSurface) (pts : List Pt) : List Pt :=
  pts.map fun x => x - (S.f x / norm2 (S.grad x)) • S.grad x

open Classical in
/-- The runner's implicit-surface projection loop:
`while numpy.any(numpy.abs(fval) > implicit_surface_tol)`, sweep.  The
source loop is uncapped; `fuel` bounds the recursion, `none` meaning the
source would still be looping after `fuel` sweeps. -/
noncomputable def projLoop (S : ImplSurface) (stol : ℝ) : ℕ → List Pt → Option (List Pt)
  | 0, pts => if ∀ x ∈ pts, |S.f x| ≤ stol then some pts else none
  | fuel + 1, pts =>
      if ∀ x ∈ pts, |S.f x| ≤ stol then some pts
      else projLoop S stol fuel (projStep S pts)

/-- The clamped displacement array `diff` of one runner iteration:
`omega * (new_points - mesh.points)` clamped per point by
`max_step` (computed from the pre-step mesh). -/
noncomputable def stepDiff (ops : MeshOps) (gnp : GNP) (omega : ℝ) (m : MeshState) : List Pt :=
  let X := (gnp m).1
  let m1 := (gnp m).2
  (List.range m1.points.length).map fun i =>
    clampDiffAt (omega • (X.getD i 0 - m1.points.getD i 0))
      (maxStepAt m1.cells (ops.inradius m1) i)

/-- The point array after `mesh.points += diff`, before any surface
projection. -/
noncomputable def prePoints (ops : MeshOps) (gnp : GNP) (omega : ℝ) (m : MeshState) : List Pt :=
  let m1 := (gnp m).2
  (List.range m1.points.length).map fun i =>
    m1.points.getD i 0 + (stepDiff ops gnp omega m).getD i 0

/-- One full iteration of `helpers.runner`'s loop body: update rule,
clamp, apply, optional surface projection (whose uncapped inner loop is
fuelled by `pfuel`), `update_values`, `flip_until_delaunay`.  Returns
the new mesh and the clamped displacements the convergence test reads. -/
noncomputable def runnerStepCore (ops : MeshOps) (gnp : GNP) (omega : ℝ)
    (surf : Option ImplSurface) (stol : ℝ) (pfuel : ℕ) (m : MeshState) :
    Option (MeshState × List Pt) :=
  let m1 := (gnp m).2
  let diff := stepDiff ops gnp omega m
  match surf with
  | none => some (ops.flip (updateValues ops { m1 with points := prePoints ops gnp omega m }), diff)
  | some S =>
      match projLoop S stol pfuel (prePoints ops gnp omega m) with
      | none => none
      | some q => some (ops.flip (updateValues ops { m1 with points := q }), diff)

/-- The mesh produced by one surface-free runner iteration. -/
noncomputable def stepMesh (ops : MeshOps) (gnp : GNP) (omega : ℝ) (m : MeshState) : MeshState :=
  ops.flip (updateValues ops { (gnp m).2 with points := prePoints ops gnp omega m })

/-- The mesh entering iteration `j + 1` of the surface-free runner: the
initial `flip_until_delaunay`, then `j` loop iterations. -/
noncomputable def meshOrbit (ops : MeshOps) (gnp : GNP) (omega : ℝ) (m0 : MeshState) :
    ℕ → MeshState :=
  fun j => (stepMesh ops gnp omega)^[j] (ops.flip m0)

/-- Has the step cap been reached (`k >= max_num_steps`)?  `none` models
an infinite cap (`numpy.inf`), which no iteration count reaches. -/
def capReached (cap : Option ℕ) (k : ℕ) : Prop :=
  match cap with
  | none => False
  | some c => c ≤ k

open Classical in
/-- The loop of `helpers.runner`: run iterations, after each one test
`is_final = numpy.all(diff_norm_2 < tol ** 2) or k >= max_num_steps`,
and on exit return `(k, numpy.max(numpy.sqrt(diff_norm_2)))`.  `fuel`
bounds the recursion of the embedded loop; `none` means the source loop
was still running after `fuel` iterations (or an uncapped projection
loop failed to finish within its own fuel). -/
noncomputable def runnerLoop (ops : MeshOps) (gnp : GNP) (tol omega : ℝ) (cap : Option ℕ)
    (surf : Option ImplSurface) (stol : ℝ) (pfuel : ℕ) :
    ℕ → ℕ → MeshState → Option (ℕ × ℝ)
  | 0, _, _ => none
  | fuel + 1, k, m =>
      match runnerStepCore ops gnp omega surf stol pfuel m with
      | none => none
      | some (m', diff) =>
          if (∀ d ∈ diff, norm2 d < tol ^ 2) ∨ capReached cap (k + 1) then
            some (k + 1, maxD (diff.map fun d => Real.sqrt (norm2 d)))
          else runnerLoop ops gnp tol omega cap surf stol pfuel fuel (k + 1) m'

/-- `helpers.runner`: initial `flip_until_delaunay`, then the loop from
`k = 0`. -/
noncomputable def runner (ops : MeshOps) (gnp : GNP) (tol omega : ℝ) (cap : Option ℕ)
    (surf : Option ImplSurface) (stol : ℝ) (pfuel fuel : ℕ) (m0 : MeshState) : Option (ℕ × ℝ) :=
  runnerLoop ops gnp tol omega cap surf stol pfuel fuel 0 (ops.flip m0)

/-- The accumulated (unscaled) gradient array of `optimesh.odt`'s `jac`:
for each vertex column, scatter-add `(points[mcn] - cc) * cell_volumes`
into the per-point accumulator. -/
noncomputable def jacGrad (pts : List Pt) (cells : List Cell) (cc : List Pt)
    (vols : List ℝ) : List Pt :=
  let n := pts.length
  let vals : (Cell → ℕ) → List Pt := fun col =>
    (List.range cells.length).map fun j =>
      vols.getD j 0 • (pts.getD (col (cells.getD j (0, 0, 0))) 0 - cc.getD j 0)
  listAdd
    (listAdd (bincountM n (cells.map cellA) (vals cellA))
      (bincountM n (cells.map cellB) (vals cellB)))
    (bincountM n (cells.map cellC) (vals cellC))

/-- `jac`'s return value: the accumulated gradient scaled by
`2 / (gdim + 1)` with `gdim = 2`, restricted to interior points and
flattened row-major. -/
noncomputable def jacVec (pts : List Pt) (cells : List Cell) (cc : List Pt)
    (vols : List ℝ) : List ℝ :=
  (interiorIdx pts.length cells).flatMap fun i =>
    [((2 / 3 : ℝ) • (jacGrad pts cells cc vols).getD i 0).1,
     ((2 / 3 : ℝ) • (jacGrad pts cells cc vols).getD i 0).2]

/-- The optimizer's initial free-variable vector
`x0 = X[mesh.is_interior_point].flatten()`. -/
def x0Vec (X : List Pt) (cells : List Cell) : List ℝ :=
  (interiorIdx X.length cells).flatMap fun i => [(X.getD i 0).1, (X.getD i 0).2]

/-- The gradient value the spec states for point `i`:
`(2/(d+1)) * sum over cells containing i of (x_i - circumcenter) * volume`,
`d = 2`. -/
noncomputable def specGradAt (pts : List Pt) (cells : List Cell) (cc : List Pt)
    (vols : List ℝ) (i : ℕ) : Pt :=
  (2 / 3 : ℝ) •
    ((List.range cells.length).map fun j =>
      if multP i (cells.getD j (0, 0, 0)) ≠ 0 then
        vols.getD j 0 • (pts.getD i 0 - cc.getD j 0)
      else 0).sum

/-- A minimal concrete mesh collaborator used to instantiate the
runner theorems on concrete inputs: every cell reports inradius 2,
circumcenter and barycenter at the origin, volume 1, and flipping is the
identity re-triangulation. -/
def trivOps : MeshOps where
  inradius := fun m => m.cells.map fun _ => (2 : ℝ)
  circum := fun m => m.cells.map fun _ => (0, 0)
  bary := fun m => m.cells.map fun _ => (0, 0)
  vols := fun m => m.cells.map fun _ => (1 : ℝ)
  flip := fun m => m

/-- The identity update rule (a fixed point everywhere): candidate
points equal current points, state untouched. -/
def gnpId : GNP := fun m => (m.points, m)

/-- A concrete collaborator whose circumcenters and barycenters differ
(circumcenter `(5, 5)`, barycenter `(1, 1)` for every cell), used to
exhibit the cache staleness of the uniform ODT rule on a concrete
mesh. -/
def markOps : MeshOps where
  inradius := fun m => m.cells.map fun _ => (2 : ℝ)
  circum := fun m => m.cells.map fun _ => (5, 5)
  bary := fun m => m.cells.map fun _ => (1, 1)
  vols := fun m => m.cells.map fun _ => (1 : ℝ)
  flip := fun m => m

/-! ### Generic list lemmas -/

theorem getD_range_map {α : Type} (f : ℕ → α) (d : α) {i n : ℕ} (h : i < n) :
    (((List.range n).map f).getD i d) = f i := by
  rw [List.getD_eq_getElem?_getD, List.getElem?_map, List.getElem?_range h]
  rfl

theorem getD_map_lt {α β : Type} (f : α → β) {l : List α} {j : ℕ} (h : j < l.length)
    (d : β) (c : α) : (l.map f).getD j d = f (l.getD j c) := by
  rw [List.getD_eq_getElem?_getD, List.getElem?_map, List.getElem?_eq_getElem h,
    List.getD_eq_getElem?_getD, List.getElem?_eq_getElem h]
  rfl

theorem length_bincountM {M : Type} [AddCommMonoid M] (n : ℕ) (idx : List ℕ) (vals : List M) :
    (bincountM n idx vals).length = n := by
  simp [bincountM]

theorem length_listAdd {M : Type} [Add M] (a b : List M) :
    (listAdd a b).length = min a.length b.length := by
  simp [listAdd]

theorem getD_listAdd {M : Type} [AddMonoid M] {a b : List M} {j : ℕ}
    (hja : j < a.length) (hjb : j < b.length) :
    (listAdd a b).getD j 0 = a.getD j 0 + b.getD j 0 := by
  have hj : j < (listAdd a b).length := by
    rw [length_listAdd]; exact lt_min hja hjb
  rw [List.getD_eq_getElem?_getD, List.getElem?_eq_getElem hj,
    List.getD_eq_getElem?_getD, List.getElem?_eq_getElem hja,
    List.getD_eq_getElem?_getD, List.getElem?_eq_getElem hjb]
  simp [listAdd]

theorem sum_map_addf {α M : Type} [AddCommMonoid M] (l : List α) (f g : α → M) :
    (l.map fun x => f x + g x).sum = (l.map f).sum + (l.map g).sum := by
  induction l with
  | nil => simp
  | cons a t ih =>
      simp only [List.map_cons, List.sum_cons, ih]
      abel

theorem sum_zip_range {α β M : Type} [AddCommMonoid M] (f : α × β → M)
    (da : α) (db : β) :
    ∀ (a : List α) (b : List β),
      ((a.zip b).map f).sum =
        ((List.range (min a.length b.length)).map fun j => f (a.getD j da, b.getD j db)).sum := by
  intro a
  induction a with
  | nil => intro b; simp
  | cons x a' ih =>
      intro b
      cases b with
      | nil => simp
      | cons y b' =>
          have hmin : min (x :: a').length (y :: b').length = min a'.length b'.length + 1 := by
            simp [Nat.succ_min_succ]
          rw [hmin, List.range_succ_eq_map]
          simp only [List.zip_cons_cons, List.map_cons, List.sum_cons, List.map_map]
          rw [ih b']
          congr 1

theorem map_sum_to_range {α M : Type} [AddCommMonoid M] (l : List α) (g : α → M) (d : α) :
    (l.map g).sum = ((List.range l.length).map fun j => g (l.getD j d)).sum := by
  induction l with
  | nil => simp
  | cons x t ih =>
      have : (x :: t).length = t.length + 1 := rfl
      rw [this, List.range_succ_eq_map]
      simp only [List.map_cons, List.sum_cons, List.map_map]
      rw [ih]
      rfl

theorem sum_range_single {M : Type} [AddCommMonoid M] (c : ℕ → M) {a n : ℕ} (h : a < n) :
    ((List.range n).map fun p => if a = p then c p else 0).sum = c a := by
  induction n with
  | zero => omega
  | succ n ih =>
      rw [List.range_succ, List.map_append, List.sum_append]
      by_cases han : a = n
      · subst han
        have hz : ∀ x ∈ (List.range a).map fun p => if a = p then c p else 0, x = 0 := by
          intro x hx
          rcases List.mem_map.mp hx with ⟨p, hp, rfl⟩
          have : p < a := List.mem_range.mp hp
          simp [show a ≠ p by omega]
        rw [List.sum_eq_zero hz]
        simp
      · have ha' : a < n := by omega
        rw [ih ha']
        simp [han]

theorem sum_range_comm {M : Type} [AddCommMonoid M] (n L : ℕ) (F : ℕ → ℕ → M) :
    ((List.range n).map fun p => ((List.range L).map fun j => F p j).sum).sum =
      ((List.range L).map fun j => ((List.range n).map fun p => F p j).sum).sum := by
  induction n with
  | zero => simp
  | succ n ih =>
      have hR : ((List.range L).map fun j => ((List.range (n + 1)).map fun p => F p j).sum) =
          (List.range L).map fun j => ((List.range n).map fun p => F p j).sum + F n j := by
        apply List.map_congr_left
        intro j _
        rw [List.range_succ, List.map_append, List.sum_append]
        simp
      rw [hR, sum_map_addf, ← ih, List.range_succ, List.map_append, List.sum_append]
      simp

theorem maxD_foldl_lt {t a : ℝ} :
    ∀ {l : List ℝ}, l.foldl max a < t ↔ a < t ∧ ∀ x ∈ l, x < t := by
  intro l
  induction l generalizing a with
  | nil => simp
  | cons x l' ih =>
      simp only [List.foldl_cons]
      rw [ih]
      constructor
      · rintro ⟨hax, hall⟩
        rw [max_lt_iff] at hax
        exact ⟨hax.1, by intro y hy; rcases List.mem_cons.mp hy with rfl | hy'
                         exacts [hax.2, hall y hy']⟩
      · rintro ⟨ha, hall⟩
        exact ⟨max_lt_iff.mpr ⟨ha, hall x (List.mem_cons_self x l')⟩,
          fun y hy => hall y (List.mem_cons_of_mem x hy)⟩

theorem maxD_lt_iff {l : List ℝ} (hne : l ≠ []) {t : ℝ} :
    maxD l < t ↔ ∀ x ∈ l, x < t := by
  cases l with
  | nil => exact absurd rfl hne
  | cons x l' =>
      simp only [maxD]
      rw [maxD_foldl_lt]
      constructor
      · rintro ⟨hx, hall⟩ y hy
        rcases List.mem_cons.mp hy with rfl | hy'
        exacts [hx, hall y hy']
      · intro hall
        exact ⟨hall x (List.mem_cons_self x l'), fun y hy => hall y (List.mem_cons_of_mem x hy)⟩

/-! ### Scatter-add (bincount) lemmas -/

theorem bincount_getD {M : Type} [AddCommMonoid M] {n : ℕ} {idx : List ℕ} {vals : List M}
    (hlen : vals.length = idx.length) {p : ℕ} (hp : p < n) :
    (bincountM n idx vals).getD p 0 =
      ((List.range idx.length).map fun j =>
        if idx.getD j 0 = p then vals.getD j 0 else 0).sum := by
  unfold bincountM
  rw [getD_range_map _ _ hp, sum_zip_range _ 0 0]
  rw [hlen, min_self]

theorem bincount_dot {n : ℕ} {idx : List ℕ} {vals : List ℝ} (f : ℕ → ℝ)
    (hlen : vals.length = idx.length) (hidx : ∀ j < idx.length, idx.getD j 0 < n) :
    ((List.range n).map fun p => (bincountM n idx vals).getD p 0 * f p).sum =
      ((List.range idx.length).map fun j => vals.getD j 0 * f (idx.getD j 0)).sum := by
  have h1 : ((List.range n).map fun p => (bincountM n idx vals).getD p 0 * f p) =
      (List.range n).map fun p =>
        ((List.range idx.length).map fun j =>
          if idx.getD j 0 = p then vals.getD j 0 * f p else 0).sum := by
    apply List.map_congr_left
    intro p hp
    rw [bincount_getD hlen (List.mem_range.mp hp), ← List.sum_map_mul_right]
    congr 1
    apply List.map_congr_left
    intro j _
    rw [ite_mul, zero_mul]
  rw [h1, sum_range_comm]
  congr 1
  apply List.map_congr_left
  intro j hj
  exact sum_range_single (fun p => vals.getD j 0 * f p) (hidx j (List.mem_range.mp hj))

theorem ite3_smul {M : Type} [AddCommMonoid M] [Module ℝ M] (c : Cell) (p : ℕ) (v : M) :
    ((if cellA c = p then v else 0) + (if cellB c = p then v else 0) +
      (if cellC c = p then v else 0)) = (multP p c : ℝ) • v := by
  by_cases h1 : cellA c = p <;> by_cases h2 : cellB c = p <;> by_cases h3 : cellC c = p <;>
    simp [multP, h1, h2, h3] <;> module

/-! ### Norm and clamp lemmas -/

theorem norm2_nonneg (d : Pt) : 0 ≤ norm2 d :=
  add_nonneg (sq_nonneg d.1) (sq_nonneg d.2)

theorem norm2_smul (c : ℝ) (d : Pt) : norm2 (c • d) = c ^ 2 * norm2 d := by
  simp only [norm2, Prod.smul_fst, Prod.smul_snd, smul_eq_mul]
  ring

theorem sqrt_norm2_smul (c : ℝ) (d : Pt) :
    Real.sqrt (norm2 (c • d)) = |c| * Real.sqrt (norm2 d) := by
  rw [norm2_smul, Real.sqrt_mul (sq_nonneg c), Real.sqrt_sq_eq_abs]

theorem incidentInradii_subset {cells : List Cell} {inr : List ℝ} {i : ℕ} {r : ℝ}
    (hr : r ∈ incidentInradii cells inr i) : r ∈ inr := by
  unfold incidentInradii at hr
  rcases List.mem_map.mp hr with ⟨q, hq, rfl⟩
  exact (List.of_mem_zip (List.mem_of_mem_filter hq)).2

theorem maxStepAt_nonneg {cells : List Cell} {inr : List ℝ} {i : ℕ} {b : ℝ}
    (hr : ∀ r ∈ inr, 0 ≤ r) (hb : maxStepAt cells inr i = some b) : 0 ≤ b := by
  unfold maxStepAt at hb
  rcases Option.map_eq_some'.mp hb with ⟨r0, hmin, rfl⟩
  have hr0 : r0 ∈ incidentInradii cells inr i := List.min?_mem (fun _ _ => min_choice _ _) hmin
  have := hr r0 (incidentInradii_subset hr0)
  linarith

/-- C1.  In every runner iteration the applied displacement of point `i`
is the clamp of the raw displacement `omega * (candidate - current)`:
with a finite bound `b` (half the minimum inradius over the incident
cells of the pre-step mesh), a raw displacement longer than `b` is
rescaled to have norm exactly `b` with its direction preserved, any
other raw displacement is applied unchanged, and the applied
displacement never exceeds the bound; with no incident cell (bound
`none`, numpy's `inf`) the raw displacement is always applied
unchanged. -/
theorem C1_step_clamp (ops : MeshOps) (gnp : GNP) (omega : ℝ) (m : MeshState) (i : ℕ)
    (hr : ∀ r ∈ ops.inradius (gnp m).2, 0 ≤ r)
    (hi : i < (gnp m).2.points.length) :
    (stepDiff ops gnp omega m).getD i 0 =
      clampDiffAt (omega • ((gnp m).1.getD i 0 - (gnp m).2.points.getD i 0))
        (maxStepAt (gnp m).2.cells (ops.inradius (gnp m).2) i) ∧
    (maxStepAt (gnp m).2.cells (ops.inradius (gnp m).2) i = none →
      (stepDiff ops gnp omega m).getD i 0 =
        omega • ((gnp m).1.getD i 0 - (gnp m).2.points.getD i 0)) ∧
    (∀ b, maxStepAt (gnp m).2.cells (ops.inradius (gnp m).2) i = some b →
      0 ≤ b ∧
      (b < Real.sqrt (norm2 (omega • ((gnp m).1.getD i 0 - (gnp m).2.points.getD i 0))) →
        (stepDiff ops gnp omega m).getD i 0 =
          (b / Real.sqrt (norm2 (omega • ((gnp m).1.getD i 0 - (gnp m).2.points.getD i 0)))) •
            (omega • ((gnp m).1.getD i 0 - (gnp m).2.points.getD i 0)) ∧
        Real.sqrt (norm2 ((stepDiff ops gnp omega m).getD i 0)) = b) ∧
      (Real.sqrt (norm2 (omega • ((gnp m).1.getD i 0 - (gnp m).2.points.getD i 0))) ≤ b →
        (stepDiff ops gnp omega m).getD i 0 =
          omega • ((gnp m).1.getD i 0 - (gnp m).2.points.getD i 0)) ∧
      Real.sqrt (norm2 ((stepDiff ops gnp omega m).getD i 0)) ≤ b) := by
  have hget : (stepDiff ops gnp omega m).getD i 0 =
      clampDiffAt (omega • ((gnp m).1.getD i 0 - (gnp m).2.points.getD i 0))
        (maxStepAt (gnp m).2.cells (ops.inradius (gnp m).2) i) := by
    unfold stepDiff
    exact getD_range_map _ _ hi
  refine ⟨hget, ?_, ?_⟩
  · intro hnone
    rw [hget, hnone, clampDiffAt]
  · intro b hb
    have hb0 : 0 ≤ b := maxStepAt_nonneg hr hb
    set d : Pt := omega • ((gnp m).1.getD i 0 - (gnp m).2.points.getD i 0) with hd
    have hclamp : clampDiffAt d (some b) =
        if Real.sqrt (norm2 d) > b then (b / Real.sqrt (norm2 d)) • d else d := rfl
    refine ⟨hb0, ?_, ?_, ?_⟩
    · intro hlong
      have hif : clampDiffAt d (some b) = (b / Real.sqrt (norm2 d)) • d := by
        rw [hclamp, if_pos hlong]
      have hs : 0 < Real.sqrt (norm2 d) := lt_of_le_of_lt hb0 hlong
      constructor
      · rw [hget, hb, hif]
      · rw [hget, hb, hif, sqrt_norm2_smul,
          abs_of_nonneg (div_nonneg hb0 (le_of_lt hs)), div_mul_cancel₀ _ (ne_of_gt hs)]
    · intro hshort
      rw [hget, hb, hclamp, if_neg (not_lt.mpr hshort)]
    · by_cases hlong : Real.sqrt (norm2 d) > b
      · have hs : 0 < Real.sqrt (norm2 d) := lt_of_le_of_lt hb0 hlong
        rw [hget, hb, hclamp, if_pos hlong, sqrt_norm2_smul,
          abs_of_nonneg (div_nonneg hb0 (le_of_lt hs)), div_mul_cancel₀ _ (ne_of_gt hs)]
      · rw [hget, hb, hclamp, if_neg hlong]
        exact le_of_not_lt hlong

/-- Witness for C1 at a concrete mesh: one point, one (degenerate)
incident cell of inradius 2, identity update rule. -/
theorem C1_step_clamp_witness :
    (∀ r ∈ trivOps.inradius ((gnpId (MeshState.mk [((0 : ℝ), (0 : ℝ))] [(0, 0, 0)] [])).2), 0 ≤ r) ∧
    0 < ((gnpId (MeshState.mk [((0 : ℝ), (0 : ℝ))] [(0, 0, 0)] [])).2).points.length ∧
    (stepDiff trivOps gnpId 1 (MeshState.mk [((0 : ℝ), (0 : ℝ))] [(0, 0, 0)] [])).getD 0 0 =
      clampDiffAt
        ((1 : ℝ) • ((gnpId (MeshState.mk [((0 : ℝ), (0 : ℝ))] [(0, 0, 0)] [])).1.getD 0 0 -
          ((gnpId (MeshState.mk [((0 : ℝ), (0 : ℝ))] [(0, 0, 0)] [])).2).points.getD 0 0))
        (maxStepAt ((gnpId (MeshState.mk [((0 : ℝ), (0 : ℝ))] [(0, 0, 0)] [])).2).cells
          (trivOps.inradius ((gnpId (MeshState.mk [((0 : ℝ), (0 : ℝ))] [(0, 0, 0)] [])).2)) 0) := by
  have hr : ∀ r ∈ trivOps.inradius
      ((gnpId (MeshState.mk [((0 : ℝ), (0 : ℝ))] [(0, 0, 0)] [])).2), 0 ≤ r := by
    intro r hrr
    simp only [trivOps, gnpId, List.map_cons, List.map_nil, List.mem_singleton] at hrr
    rw [hrr]; norm_num
  have hi : 0 < ((gnpId (MeshState.mk [((0 : ℝ), (0 : ℝ))] [(0, 0, 0)] [])).2).points.length := by
    simp [gnpId]
  exact ⟨hr, hi, (C1_step_clamp trivOps gnpId 1 _ 0 hr hi).1⟩

/-! ### C9: the implicit-surface projection loop -/

/-- C9.  The runner's implicit-surface projection: each sweep moves all
points simultaneously by the Newton-style step
`x := x - f(x) * grad f(x) / norm(grad f(x))^2`; whenever some residual
still exceeds the tolerance the loop simply recurses on the swept
points (there is no iteration cap: the fuel-free source loop exits only
once every point satisfies the residual bound, which is exactly what
any returned value satisfies); and for an affine `f` with constant
nonzero gradient one sweep always suffices. -/
theorem C9_surface_projection (S : ImplSurface) (stol : ℝ) :
    (∀ fuel (pts res : List Pt),
      projLoop S stol fuel pts = some res → ∀ x ∈ res, |S.f x| ≤ stol) ∧
    (∀ pts : List Pt,
      projStep S pts = pts.map fun x => x - (S.f x / norm2 (S.grad x)) • S.grad x) ∧
    (∀ fuel (pts : List Pt), ¬(∀ x ∈ pts, |S.f x| ≤ stol) →
      projLoop S stol (fuel + 1) pts = projLoop S stol fuel (projStep S pts) ∧
      projLoop S stol 0 pts = none) ∧
    (∀ (g : Pt) (cst : ℝ),
      (∀ x : Pt, S.f x = g.1 * x.1 + g.2 * x.2 + cst) →
      (∀ x : Pt, S.grad x = g) → norm2 g ≠ 0 → 0 ≤ stol →
      ∀ pts : List Pt, ∃ res, projLoop S stol 1 pts = some res) := by
  refine ⟨?_, fun _ => rfl, ?_, ?_⟩
  · intro fuel
    induction fuel with
    | zero =>
        intro pts res hres
        rw [projLoop] at hres
        by_cases h : ∀ x ∈ pts, |S.f x| ≤ stol
        · rw [if_pos h] at hres
          cases hres
          exact h
        · rw [if_neg h] at hres
          cases hres
    | succ fuel ih =>
        intro pts res hres
        rw [projLoop] at hres
        by_cases h : ∀ x ∈ pts, |S.f x| ≤ stol
        · rw [if_pos h] at hres
          cases hres
          exact h
        · rw [if_neg h] at hres
          exact ih _ _ hres
  · intro fuel pts h
    constructor
    · rw [projLoop, if_neg h]
    · rw [projLoop, if_neg h]
  · intro g cst hf hg hng hst pts
    by_cases h : ∀ x ∈ pts, |S.f x| ≤ stol
    · exact ⟨pts, by rw [projLoop, if_pos h]⟩
    · refine ⟨projStep S pts, ?_⟩
      rw [projLoop, if_neg h, projLoop, if_pos ?_]
      intro x hx
      rcases List.mem_map.mp hx with ⟨y, _, rfl⟩
      have hzero : S.f (y - (S.f y / norm2 (S.grad y)) • S.grad y) = 0 := by
        rw [hg y, hf y]
        rw [hf]
        simp only [Prod.fst_sub, Prod.snd_sub, Prod.smul_fst, Prod.smul_snd, smul_eq_mul]
        unfold norm2 at hng ⊢
        field_simp
        ring
      rw [hzero]
      simpa using hst

/-- Witness for C9: the affine surface `f(x, y) = x` with gradient
`(1, 0)`, tolerance 0, one point at `(5, 7)`. -/
theorem C9_surface_projection_witness :
    (∀ x : Pt, (ImplSurface.mk (fun x => x.1) (fun _ => ((1 : ℝ), (0 : ℝ)))).f x =
      ((1 : ℝ), (0 : ℝ)).1 * x.1 + ((1 : ℝ), (0 : ℝ)).2 * x.2 + 0) ∧
    norm2 ((1 : ℝ), (0 : ℝ)) ≠ 0 ∧
    ∃ res, projLoop (ImplSurface.mk (fun x => x.1) (fun _ => ((1 : ℝ), (0 : ℝ)))) 0 1
      [((5 : ℝ), (7 : ℝ))] = some res := by
  have hf : ∀ x : Pt, (ImplSurface.mk (fun x => x.1) (fun _ => ((1 : ℝ), (0 : ℝ)))).f x =
      ((1 : ℝ), (0 : ℝ)).1 * x.1 + ((1 : ℝ), (0 : ℝ)).2 * x.2 + 0 := by
    intro x; simp
  have hng : norm2 ((1 : ℝ), (0 : ℝ)) ≠ 0 := by
    unfold norm2; norm_num
  exact ⟨hf, hng,
    (C9_surface_projection (ImplSurface.mk (fun x => x.1) (fun _ => ((1 : ℝ), (0 : ℝ)))) 0).2.2.2
      ((1 : ℝ), (0 : ℝ)) 0 hf (fun _ => rfl) hng le_rfl [((5 : ℝ), (7 : ℝ))]⟩

/-! ### C10: circumcenter-cache mutation of the uniform ODT rule -/

theorem getD_eq_default_of_le {α : Type} {l : List α} {i : ℕ} (h : l.length ≤ i) (d : α) :
    l.getD i d = d := by
  rw [List.getD_eq_getElem?_getD, List.getElem?_eq_none h]
  rfl

theorem getD_set_ne {α : Type} (l : List α) {i j : ℕ} (h : i ≠ j) (a d : α) :
    (l.set i a).getD j d = l.getD j d := by
  rw [List.getD_eq_getElem?_getD, List.getElem?_set_ne h, ← List.getD_eq_getElem?_getD]

theorem getD_set_self {α : Type} (l : List α) {i : ℕ} (h : i < l.length) (a d : α) :
    (l.set i a).getD i d = a := by
  rw [List.getD_eq_getElem?_getD, List.getElem?_set_self h]
  rfl

theorem substList_getD (repl : List Pt) :
    ∀ (ids : List ℕ) (base : List Pt) (j : ℕ),
      (substList base repl ids).getD j 0 =
        if j ∈ ids ∧ j < base.length then repl.getD j 0 else base.getD j 0 := by
  intro ids
  induction ids with
  | nil => intro base j; simp [substList]
  | cons i ids ih =>
      intro base j
      have hstep : substList base repl (i :: ids) =
          substList (base.set i (repl.getD i 0)) repl ids := rfl
      rw [hstep, ih, List.length_set]
      by_cases hij : i = j
      · subst hij
        by_cases hl : i < base.length
        · by_cases hmem : i ∈ ids
          · rw [if_pos ⟨hmem, hl⟩, if_pos ⟨List.mem_cons_self i ids, hl⟩]
          · rw [if_neg (fun h => hmem h.1), if_pos ⟨List.mem_cons_self i ids, hl⟩,
              getD_set_self base hl]
        · rw [List.set_eq_of_length_le (le_of_not_lt hl)]
          rw [if_neg (fun h => hl h.2), if_neg (fun h => hl h.2)]
      · have hmemiff : (j ∈ i :: ids ∧ j < base.length) ↔ (j ∈ ids ∧ j < base.length) := by
          constructor
          · rintro ⟨h, hlen⟩
            rcases List.mem_cons.mp h with rfl | h'
            · exact absurd rfl hij
            · exact ⟨h', hlen⟩
          · rintro ⟨h, hlen⟩
            exact ⟨List.mem_cons_of_mem i h, hlen⟩
        by_cases hc : j ∈ ids ∧ j < base.length
        · rw [if_pos hc, if_pos (hmemiff.mpr hc)]
        · rw [if_neg hc, if_neg (fun h => hc (hmemiff.mp h)), getD_set_ne base hij]

/-- C10.  The uniform ODT fixed-point rule binds the mesh's cached
circumcenter array without copying and overwrites its boundary-cell
rows with barycenters, so after the rule runs the cache holds the
overwritten array and (as soon as one overwritten row actually
changed) no longer equals the circumcenters of the current points —
until `update_values` recomputes it; the density-preserving rule works
on a copy and leaves the mesh state, cache included, untouched. -/
theorem C10_cache_mutation (ops : MeshOps) (hL : LawfulOps ops) (m : MeshState)
    (_hsync : m.ccCache = ops.circum m) (j : ℕ)
    (hj : j ∈ boundaryCellIds m.cells) (hjlen : j < m.ccCache.length)
    (hdiff : (ops.bary m).getD j 0 ≠ (ops.circum m).getD j 0) :
    ((odtUniformGNP ops none m).2).ccCache =
      substList m.ccCache (ops.bary m) (boundaryCellIds m.cells) ∧
    ((odtUniformGNP ops none m).2).ccCache ≠ ops.circum ((odtUniformGNP ops none m).2) ∧
    (updateValues ops ((odtUniformGNP ops none m).2)).ccCache =
      ops.circum ((odtUniformGNP ops none m).2) ∧
    (odtDPGNP ops none m).2 = m := by
  have hcongr : ops.circum ((odtUniformGNP ops none m).2) = ops.circum m :=
    hL.circum_congr _ _ rfl rfl
  refine ⟨rfl, ?_, rfl, rfl⟩
  intro heq
  have hgd : (substList m.ccCache (ops.bary m) (boundaryCellIds m.cells)).getD j 0 =
      (ops.circum m).getD j 0 := by
    have : ((odtUniformGNP ops none m).2).ccCache =
        substList m.ccCache (ops.bary m) (boundaryCellIds m.cells) := rfl
    rw [← this, heq, hcongr]
  rw [substList_getD, if_pos ⟨hj, hjlen⟩] at hgd
  exact hdiff hgd

/-- Witness for C10: a single triangle whose collaborator reports
circumcenter `(5, 5)` and barycenter `(1, 1)`, with the cache in sync
before the rule. -/
theorem C10_cache_mutation_witness :
    LawfulOps markOps ∧
    (MeshState.mk [((0 : ℝ), (0 : ℝ)), (1, 0), (0, 1)] [(0, 1, 2)] [(5, 5)]).ccCache =
      markOps.circum (MeshState.mk [((0 : ℝ), (0 : ℝ)), (1, 0), (0, 1)] [(0, 1, 2)] [(5, 5)]) ∧
    0 ∈ boundaryCellIds [((0 : ℕ), (1 : ℕ), (2 : ℕ))] ∧
    ((odtUniformGNP markOps none
        (MeshState.mk [((0 : ℝ), (0 : ℝ)), (1, 0), (0, 1)] [(0, 1, 2)] [(5, 5)])).2).ccCache ≠
      markOps.circum ((odtUniformGNP markOps none
        (MeshState.mk [((0 : ℝ), (0 : ℝ)), (1, 0), (0, 1)] [(0, 1, 2)] [(5, 5)])).2) := by
  have hL : LawfulOps markOps := by
    refine ⟨fun m => rfl, fun m i => rfl, fun m m' hp hc => ?_⟩
    simp [markOps, hc]
  have hsync : (MeshState.mk [((0 : ℝ), (0 : ℝ)), (1, 0), (0, 1)] [(0, 1, 2)] [(5, 5)]).ccCache =
      markOps.circum (MeshState.mk [((0 : ℝ), (0 : ℝ)), (1, 0), (0, 1)] [(0, 1, 2)] [(5, 5)]) := by
    simp [markOps]
  have hj : 0 ∈ boundaryCellIds [((0 : ℕ), (1 : ℕ), (2 : ℕ))] := by decide
  have hjlen : 0 <
      (MeshState.mk [((0 : ℝ), (0 : ℝ)), (1, 0), (0, 1)] [(0, 1, 2)] [(5, 5)]).ccCache.length := by
    simp
  have hdiff : (markOps.bary
        (MeshState.mk [((0 : ℝ), (0 : ℝ)), (1, 0), (0, 1)] [(0, 1, 2)] [(5, 5)])).getD 0 0 ≠
      (markOps.circum
        (MeshState.mk [((0 : ℝ), (0 : ℝ)), (1, 0), (0, 1)] [(0, 1, 2)] [(5, 5)])).getD 0 0 := by
    simp only [markOps, List.map_cons, List.map_nil, List.getD_cons_zero]
    intro h
    have := congrArg Prod.fst h
    norm_num at this
  exact ⟨hL, hsync, hj,
    (C10_cache_mutation markOps hL _ hsync 0 hj hjlen hdiff).2.1⟩

/-! ### C7: which cells get the barycenter substitution -/

theorem mem_boundaryCellIds {cells : List Cell} {j : ℕ} :
    j ∈ boundaryCellIds cells ↔
      j < cells.length ∧
        ((edgesOfCell (cells.getD j (0, 0, 0))).any fun e => isBoundaryEdge cells e) = true := by
  unfold boundaryCellIds
  rw [List.mem_flatMap]
  constructor
  · rintro ⟨j', hj', hmem⟩
    rcases List.mem_map.mp hmem with ⟨e, he, rfl⟩
    refine ⟨List.mem_range.mp hj', ?_⟩
    rw [List.any_eq_true]
    rcases List.mem_filter.mp he with ⟨he1, he2⟩
    exact ⟨e, he1, he2⟩
  · rintro ⟨hj, hany⟩
    rcases List.any_eq_true.mp hany with ⟨e, he, hbe⟩
    exact ⟨j, List.mem_range.mpr hj,
      List.mem_map.mpr ⟨e, List.mem_filter.mpr ⟨he, hbe⟩, rfl⟩⟩

/-- Counterexample to C7.  Two triangles sharing the diagonal of a
square: every cell has a boundary edge (so the uniform variant
substitutes barycenters everywhere), but every cell also has three
boundary vertices (so the density-preserving test `== 2` fires
nowhere): the substituted cell sets differ, and so do the reference
arrays handed to the aggregator. -/
theorem C7_counterexample :
    0 ∈ boundaryCellIds [((0 : ℕ), (1 : ℕ), (2 : ℕ)), (0, 2, 3)] ∧
    dpIsBoundaryCell [((0 : ℕ), (1 : ℕ), (2 : ℕ)), (0, 2, 3)] (0, 1, 2) = false ∧
    (odtUniformRef markOps
        (MeshState.mk [((0 : ℝ), (0 : ℝ)), (1, 0), (1, 1), (0, 1)]
          [(0, 1, 2), (0, 2, 3)] [(5, 5), (5, 5)])).getD 0 0 ≠
      (odtDPRef markOps
        (MeshState.mk [((0 : ℝ), (0 : ℝ)), (1, 0), (1, 1), (0, 1)]
          [(0, 1, 2), (0, 2, 3)] [(5, 5), (5, 5)])).getD 0 0 := by
  have h0 : 0 ∈ boundaryCellIds [((0 : ℕ), (1 : ℕ), (2 : ℕ)), (0, 2, 3)] := by decide
  have hdp : dpIsBoundaryCell [((0 : ℕ), (1 : ℕ), (2 : ℕ)), (0, 2, 3)] (0, 1, 2) = false := by
    decide
  refine ⟨h0, hdp, ?_⟩
  have hu : (odtUniformRef markOps
      (MeshState.mk [((0 : ℝ), (0 : ℝ)), (1, 0), (1, 1), (0, 1)]
        [(0, 1, 2), (0, 2, 3)] [(5, 5), (5, 5)])).getD 0 0 = (1, 1) := by
    unfold odtUniformRef
    rw [substList_getD, if_pos ⟨h0, by simp⟩]
    simp [markOps]
  have hd : (odtDPRef markOps
      (MeshState.mk [((0 : ℝ), (0 : ℝ)), (1, 0), (1, 1), (0, 1)]
        [(0, 1, 2), (0, 2, 3)] [(5, 5), (5, 5)])).getD 0 0 = (5, 5) := by
    unfold odtDPRef
    rw [getD_range_map _ _ (by simp)]
    simp only [List.getD_cons_zero, hdp]
    simp
  rw [hu, hd]
  intro h
  have := congrArg Prod.fst h
  norm_num at this

/-- C7, amended.  In both ODT fixed-point variants the reference array
handed to the averaging aggregator is the circumcenter array with
barycenters substituted for a set of boundary-related cells — but the
two variants select that set differently: the uniform variant
substitutes exactly the cells adjacent to at least one boundary edge
(`edges_cells[1][:, 0]`), while the density-preserving variant
substitutes exactly the cells with exactly two boundary vertices; the
two sets need not coincide. -/
theorem C7_amended (ops : MeshOps) (m : MeshState) (j : ℕ)
    (hj : j < m.cells.length) (hjc : j < m.ccCache.length) :
    (odtUniformRef ops m).getD j 0 =
      (if ((edgesOfCell (m.cells.getD j (0, 0, 0))).any fun e => isBoundaryEdge m.cells e) = true
        then (ops.bary m).getD j 0 else m.ccCache.getD j 0) ∧
    (odtDPRef ops m).getD j 0 =
      (if dpIsBoundaryCell m.cells (m.cells.getD j (0, 0, 0)) = true
        then (ops.bary m).getD j 0 else m.ccCache.getD j 0) ∧
    (∀ bstep, (odtUniformGNP ops bstep m).1 =
      applyBoundary bstep m
        (get_new_points_averaged m.points m.cells (odtUniformRef ops m) (some (ops.vols m)))) ∧
    (∀ bstep, (odtDPGNP ops bstep m).1 =
      applyBoundary bstep m
        (get_new_points_averaged m.points m.cells (odtDPRef ops m) none)) := by
  refine ⟨?_, ?_, fun _ => rfl, fun _ => rfl⟩
  · unfold odtUniformRef
    rw [substList_getD]
    by_cases hb : ((edgesOfCell (m.cells.getD j (0, 0, 0))).any
        fun e => isBoundaryEdge m.cells e) = true
    · rw [if_pos ⟨mem_boundaryCellIds.mpr ⟨hj, hb⟩, hjc⟩, if_pos hb]
    · rw [if_neg ?_, if_neg hb]
      intro hcontra
      exact hb (mem_boundaryCellIds.mp hcontra.1).2
  · unfold odtDPRef
    rw [getD_range_map _ _ hj]

/-- Witness for the amended C7 at the two-triangle square mesh. -/
theorem C7_amended_witness :
    0 < ([((0 : ℕ), (1 : ℕ), (2 : ℕ)), (0, 2, 3)] : List Cell).length ∧
    (odtUniformRef markOps
        (MeshState.mk [((0 : ℝ), (0 : ℝ)), (1, 0), (1, 1), (0, 1)]
          [(0, 1, 2), (0, 2, 3)] [(5, 5), (5, 5)])).getD 0 0 =
      (if ((edgesOfCell (([((0 : ℕ), (1 : ℕ), (2 : ℕ)), (0, 2, 3)] : List Cell).getD 0 (0, 0, 0))).any
            fun e => isBoundaryEdge [((0 : ℕ), (1 : ℕ), (2 : ℕ)), (0, 2, 3)] e) = true
        then (markOps.bary
          (MeshState.mk [((0 : ℝ), (0 : ℝ)), (1, 0), (1, 1), (0, 1)]
            [(0, 1, 2), (0, 2, 3)] [(5, 5), (5, 5)])).getD 0 0
        else (MeshState.mk [((0 : ℝ), (0 : ℝ)), (1, 0), (1, 1), (0, 1)]
          [(0, 1, 2), (0, 2, 3)] [(5, 5), (5, 5)]).ccCache.getD 0 0) := by
  refine ⟨by decide, ?_⟩
  exact (C7_amended markOps
    (MeshState.mk [((0 : ℝ), (0 : ℝ)), (1, 0), (1, 1), (0, 1)]
      [(0, 1, 2), (0, 2, 3)] [(5, 5), (5, 5)]) 0 (by simp) (by simp)).1

/-! ### C8: degenerate averaging input -/

/-- Counterexample to C8.  A mesh whose point 1 belongs to no cell: the
averaging step does not raise anything — the division is executed
regardless (numpy emits only a `RuntimeWarning` and produces a
non-finite entry; the embedding's total division renders that junk row
as `(0, 0)`) and a full point array is returned normally. -/
theorem C8_counterexample :
    get_new_points_averaged [((1 : ℝ), (2 : ℝ)), (3, 4)] [(0, 0, 0)] [((3 : ℝ), (6 : ℝ))] none =
      [((3 : ℝ), (6 : ℝ)), (0, 0)] := by
  unfold get_new_points_averaged bincountM listAdd divPt
  norm_num [List.range_succ, cellA, cellB, cellC]

/-- C8, amended.  The degenerate conditions (a point with no incident
cell, a non-positive weight sum) are not detected: for every input,
well-formed or not, `get_new_points_averaged` returns normally an array
with exactly one entry per mesh point; no error path exists in the
function. -/
theorem C8_no_error_on_degenerate (pts : List Pt) (cells : List Cell) (rp : List Pt)
    (weights : Option (List ℝ)) :
    (get_new_points_averaged pts cells rp weights).length = pts.length := by
  unfold get_new_points_averaged
  cases weights <;> simp

/-! ### C6: the averaging aggregator meets its contract -/

theorem column_bincount_getD {M : Type} [AddCommMonoid M] {n : ℕ} {cells : List Cell}
    (col : Cell → ℕ) {vals : List M} (hv : vals.length = cells.length) {p : ℕ} (hp : p < n) :
    (bincountM n (cells.map col) vals).getD p 0 =
      ((List.range cells.length).map fun j =>
        if col (cells.getD j (0, 0, 0)) = p then vals.getD j 0 else 0).sum := by
  rw [bincount_getD (by simpa using hv) hp, List.length_map]
  congr 1
  apply List.map_congr_left
  intro j hj
  rw [getD_map_lt col (List.mem_range.mp hj) 0 (0, 0, 0)]

theorem triple_bincount_getD {M : Type} [AddCommMonoid M] [Module ℝ M] {n : ℕ}
    {cells : List Cell} {vals : List M} (hv : vals.length = cells.length) {p : ℕ} (hp : p < n) :
    (listAdd
      (listAdd (bincountM n (cells.map cellA) vals) (bincountM n (cells.map cellB) vals))
      (bincountM n (cells.map cellC) vals)).getD p 0 =
      ((List.range cells.length).map fun j =>
        (multP p (cells.getD j (0, 0, 0)) : ℝ) • vals.getD j 0).sum := by
  have h1 : p < (listAdd (bincountM n (cells.map cellA) vals)
      (bincountM n (cells.map cellB) vals)).length := by
    rw [length_listAdd, length_bincountM, length_bincountM, min_self]
    exact hp
  have h2 : p < (bincountM n (cells.map cellC) vals).length := by
    rw [length_bincountM]; exact hp
  have h3 : p < (bincountM n (cells.map cellA) vals).length := by
    rw [length_bincountM]; exact hp
  have h4 : p < (bincountM n (cells.map cellB) vals).length := by
    rw [length_bincountM]; exact hp
  rw [getD_listAdd h1 h2, getD_listAdd h3 h4,
    column_bincount_getD cellA hv hp, column_bincount_getD cellB hv hp,
    column_bincount_getD cellC hv hp, ← sum_map_addf, ← sum_map_addf]
  congr 1
  apply List.map_congr_left
  intro j _
  exact ite3_smul (cells.getD j (0, 0, 0)) p (vals.getD j 0)

theorem getD_zip {α β : Type} {a : List α} {b : List β} {j : ℕ}
    (ha : j < a.length) (hb : j < b.length) (da : α) (db : β) :
    (a.zip b).getD j (da, db) = (a.getD j da, b.getD j db) := by
  have hz : j < (a.zip b).length := by
    rw [List.length_zip]; exact lt_min ha hb
  rw [List.getD_eq_getElem?_getD, List.getElem?_eq_getElem hz,
    List.getD_eq_getElem?_getD, List.getElem?_eq_getElem ha,
    List.getD_eq_getElem?_getD, List.getElem?_eq_getElem hb]
  simp [List.getElem_zip]

/-- C6.  On a mesh where every point has an incident cell (and, with
weights, a positive per-point weight sum), `get_new_points_averaged`
returns for every point the weight-normalised average of the per-cell
reference values over the point's incident cells, incidence counted
with the multiplicity of the point's occurrences in the vertex triple,
with weight 1 per cell when the weights argument is omitted. -/
theorem C6_averaged (pts : List Pt) (cells : List Cell) (rp : List Pt)
    (weights : Option (List ℝ)) (hrp : rp.length = cells.length)
    (hwlen : ∀ w, weights = some w → w.length = cells.length)
    (_hinc : ∀ p < pts.length, ∃ c ∈ cells, multP p c ≠ 0)
    (_hwpos : ∀ w, weights = some w → ∀ p < pts.length,
      0 < ((List.range cells.length).map fun j =>
        (multP p (cells.getD j (0, 0, 0)) : ℝ) * w.getD j 0).sum) :
    get_new_points_averaged pts cells rp weights = specAveraged pts cells rp weights := by
  cases weights with
  | none =>
      unfold get_new_points_averaged specAveraged
      dsimp only
      apply List.map_congr_left
      intro p hp
      have hp' : p < pts.length := List.mem_range.mp hp
      rw [triple_bincount_getD hrp hp', triple_bincount_getD (by simp) hp']
      congr 1
      · congr 1
        apply List.map_congr_left
        intro j _
        rw [mul_one]
      · congr 1
        apply List.map_congr_left
        intro j hj
        rw [getD_map_lt (fun _ => (1 : ℝ)) (List.mem_range.mp hj) 0 (0, 0, 0),
          smul_eq_mul]
  | some w =>
      have hwl : w.length = cells.length := hwlen w rfl
      have hscaled : ((rp.zip w).map fun q => q.2 • q.1).length = cells.length := by
        rw [List.length_map, List.length_zip, hrp, hwl, min_self]
      unfold get_new_points_averaged specAveraged
      dsimp only
      apply List.map_congr_left
      intro p hp
      have hp' : p < pts.length := List.mem_range.mp hp
      rw [triple_bincount_getD hscaled hp', triple_bincount_getD hwl hp']
      congr 1
      · congr 1
        apply List.map_congr_left
        intro j hj
        have hj' : j < cells.length := List.mem_range.mp hj
        have hjz : j < (rp.zip w).length := by
          rw [List.length_zip, hrp, hwl, min_self]; exact hj'
        rw [getD_map_lt (fun q : Pt × ℝ => q.2 • q.1) hjz 0 ((0, 0), 0),
          getD_zip (by rw [hrp]; exact hj') (by rw [hwl]; exact hj'),
          smul_smul]
        rfl

/-- Witness for C6: one triangle with reference point `(3, 3)` and
weight 2; every point of the mesh is a vertex of the triangle. -/
theorem C6_averaged_witness :
    (([((3 : ℝ), (3 : ℝ))] : List Pt).length = ([(0, 1, 2)] : List Cell).length) ∧
    (∀ p < ([((0 : ℝ), (0 : ℝ)), (1, 0), (0, 1)] : List Pt).length,
      ∃ c ∈ ([(0, 1, 2)] : List Cell), multP p c ≠ 0) ∧
    get_new_points_averaged [((0 : ℝ), (0 : ℝ)), (1, 0), (0, 1)] [(0, 1, 2)]
        [((3 : ℝ), (3 : ℝ))] (some [2]) =
      specAveraged [((0 : ℝ), (0 : ℝ)), (1, 0), (0, 1)] [(0, 1, 2)]
        [((3 : ℝ), (3 : ℝ))] (some [2]) := by
  have hrp : (([((3 : ℝ), (3 : ℝ))] : List Pt).length = ([(0, 1, 2)] : List Cell).length) := by
    simp
  have hinc : ∀ p < ([((0 : ℝ), (0 : ℝ)), (1, 0), (0, 1)] : List Pt).length,
      ∃ c ∈ ([(0, 1, 2)] : List Cell), multP p c ≠ 0 := by
    intro p hp
    simp only [List.length_cons, List.length_nil] at hp
    refine ⟨(0, 1, 2), by simp, ?_⟩
    interval_cases p <;> decide
  have hwlen : ∀ w : List ℝ, (some [(2 : ℝ)] : Option (List ℝ)) = some w →
      w.length = ([(0, 1, 2)] : List Cell).length := by
    rintro w ⟨rfl⟩
    simp
  have hwpos : ∀ w : List ℝ, (some [(2 : ℝ)] : Option (List ℝ)) = some w →
      ∀ p < ([((0 : ℝ), (0 : ℝ)), (1, 0), (0, 1)] : List Pt).length,
      0 < ((List.range ([(0, 1, 2)] : List Cell).length).map fun j =>
        (multP p (([(0, 1, 2)] : List Cell).getD j (0, 0, 0)) : ℝ) * w.getD j 0).sum := by
    rintro w ⟨rfl⟩ p hp
    simp only [List.length_cons, List.length_nil] at hp
    interval_cases p <;> norm_num [multP, cellA, cellB, cellC, List.range_succ]
  exact ⟨hrp, hinc, C6_averaged _ _ _ _ hrp hwlen hinc hwpos⟩

/-! ### C5: the analytic ODT gradient -/

theorem getD_mem_of_lt {α : Type} {l : List α} {j : ℕ} (h : j < l.length) (d : α) :
    l.getD j d ∈ l := by
  rw [List.getD_eq_getElem?_getD, List.getElem?_eq_getElem h]
  exact List.getElem_mem h

theorem ite3_distinct {M : Type} [AddCommMonoid M] (c : Cell) (p : ℕ) (v : M)
    (hd : cellA c ≠ cellB c ∧ cellB c ≠ cellC c ∧ cellA c ≠ cellC c) :
    ((if cellA c = p then v else 0) + (if cellB c = p then v else 0) +
      (if cellC c = p then v else 0)) = if multP p c ≠ 0 then v else 0 := by
  rcases hd with ⟨hab, hbc, hac⟩
  by_cases h1 : cellA c = p
  · by_cases h2 : cellB c = p
    · exact absurd (h1.trans h2.symm) hab
    · by_cases h3 : cellC c = p
      · exact absurd (h1.trans h3.symm) hac
      · simp [multP, h1, h2, h3]
  · by_cases h2 : cellB c = p
    · by_cases h3 : cellC c = p
      · exact absurd (h2.trans h3.symm) hbc
      · simp [multP, h1, h2, h3]
    · by_cases h3 : cellC c = p
      · simp [multP, h1, h2, h3]
      · simp [multP, h1, h2, h3]

theorem jacGrad_getD (pts : List Pt) (cells : List Cell) (cc : List Pt) (vols : List ℝ)
    (hdist : ∀ c ∈ cells, cellA c ≠ cellB c ∧ cellB c ≠ cellC c ∧ cellA c ≠ cellC c)
    {i : ℕ} (hi : i < pts.length) :
    (jacGrad pts cells cc vols).getD i 0 =
      ((List.range cells.length).map fun j =>
        if multP i (cells.getD j (0, 0, 0)) ≠ 0 then
          vols.getD j 0 • (pts.getD i 0 - cc.getD j 0)
        else 0).sum := by
  unfold jacGrad
  dsimp only
  have hvlen : ∀ col : Cell → ℕ,
      ((List.range cells.length).map fun j =>
        vols.getD j 0 • (pts.getD (col (cells.getD j (0, 0, 0))) 0 - cc.getD j 0)).length =
      cells.length := by
    intro col; simp
  have h1 : i < (listAdd
      (bincountM pts.length (cells.map cellA)
        ((List.range cells.length).map fun j =>
          vols.getD j 0 • (pts.getD (cellA (cells.getD j (0, 0, 0))) 0 - cc.getD j 0)))
      (bincountM pts.length (cells.map cellB)
        ((List.range cells.length).map fun j =>
          vols.getD j 0 • (pts.getD (cellB (cells.getD j (0, 0, 0))) 0 - cc.getD j 0)))).length := by
    rw [length_listAdd, length_bincountM, length_bincountM, min_self]
    exact hi
  have h2 : i < (bincountM pts.length (cells.map cellC)
      ((List.range cells.length).map fun j =>
        vols.getD j 0 • (pts.getD (cellC (cells.getD j (0, 0, 0))) 0 - cc.getD j 0))).length := by
    rw [length_bincountM]; exact hi
  have h3 : i < (bincountM pts.length (cells.map cellA)
      ((List.range cells.length).map fun j =>
        vols.getD j 0 • (pts.getD (cellA (cells.getD j (0, 0, 0))) 0 - cc.getD j 0))).length := by
    rw [length_bincountM]; exact hi
  have h4 : i < (bincountM pts.length (cells.map cellB)
      ((List.range cells.length).map fun j =>
        vols.getD j 0 • (pts.getD (cellB (cells.getD j (0, 0, 0))) 0 - cc.getD j 0))).length := by
    rw [length_bincountM]; exact hi
  rw [getD_listAdd h1 h2, getD_listAdd h3 h4,
    column_bincount_getD cellA (hvlen cellA) hi,
    column_bincount_getD cellB (hvlen cellB) hi,
    column_bincount_getD cellC (hvlen cellC) hi,
    ← sum_map_addf, ← sum_map_addf]
  congr 1
  apply List.map_congr_left
  intro j hj
  have hj' : j < cells.length := List.mem_range.mp hj
  have hgetDx : ∀ col : Cell → ℕ,
      ((List.range cells.length).map fun j' =>
        vols.getD j' 0 • (pts.getD (col (cells.getD j' (0, 0, 0))) 0 - cc.getD j' 0)).getD j 0 =
      vols.getD j 0 • (pts.getD (col (cells.getD j (0, 0, 0))) 0 - cc.getD j 0) := by
    intro col
    exact getD_range_map _ _ hj'
  rw [hgetDx cellA, hgetDx cellB, hgetDx cellC]
  have hA : (if cellA (cells.getD j (0, 0, 0)) = i then
      vols.getD j 0 • (pts.getD (cellA (cells.getD j (0, 0, 0))) 0 - cc.getD j 0) else 0) =
      (if cellA (cells.getD j (0, 0, 0)) = i then
        vols.getD j 0 • (pts.getD i 0 - cc.getD j 0) else 0) := by
    by_cases hc : cellA (cells.getD j (0, 0, 0)) = i
    · rw [if_pos hc, if_pos hc, hc]
    · rw [if_neg hc, if_neg hc]
  have hB : (if cellB (cells.getD j (0, 0, 0)) = i then
      vols.getD j 0 • (pts.getD (cellB (cells.getD j (0, 0, 0))) 0 - cc.getD j 0) else 0) =
      (if cellB (cells.getD j (0, 0, 0)) = i then
        vols.getD j 0 • (pts.getD i 0 - cc.getD j 0) else 0) := by
    by_cases hc : cellB (cells.getD j (0, 0, 0)) = i
    · rw [if_pos hc, if_pos hc, hc]
    · rw [if_neg hc, if_neg hc]
  have hC : (if cellC (cells.getD j (0, 0, 0)) = i then
      vols.getD j 0 • (pts.getD (cellC (cells.getD j (0, 0, 0))) 0 - cc.getD j 0) else 0) =
      (if cellC (cells.getD j (0, 0, 0)) = i then
        vols.getD j 0 • (pts.getD i 0 - cc.getD j 0) else 0) := by
    by_cases hc : cellC (cells.getD j (0, 0, 0)) = i
    · rw [if_pos hc, if_pos hc, hc]
    · rw [if_neg hc, if_neg hc]
  rw [hA, hB, hC]
  exact ite3_distinct _ i _ (hdist _ (getD_mem_of_lt hj' (0, 0, 0)))

/-- C5.  The nonlinear optimizer's `jac` returns, flattened over
exactly the interior points, the value
`(2/(d+1)) * sum over cells containing i of (x_i - circumcenter) * volume`
with `d = 2` for each interior point `i`; the initial vector `x0` is
the flattening of the interior points' coordinates; boundary points
never enter either vector (they are absent from `interiorIdx`, the
index set both vectors are built over). -/
theorem C5_jac (pts : List Pt) (cells : List Cell) (cc : List Pt) (vols : List ℝ)
    (hdist : ∀ c ∈ cells, cellA c ≠ cellB c ∧ cellB c ≠ cellC c ∧ cellA c ≠ cellC c) :
    jacVec pts cells cc vols =
      ((interiorIdx pts.length cells).flatMap fun i =>
        [(specGradAt pts cells cc vols i).1, (specGradAt pts cells cc vols i).2]) ∧
    x0Vec pts cells =
      ((interiorIdx pts.length cells).flatMap fun i => [(pts.getD i 0).1, (pts.getD i 0).2]) ∧
    ∀ i, isBoundaryPt cells i = true → i ∉ interiorIdx pts.length cells := by
  refine ⟨?_, rfl, ?_⟩
  · unfold jacVec
    apply List.flatMap_congr
    intro i hi
    have hi' : i < pts.length := by
      have := List.mem_filter.mp hi
      exact List.mem_range.mp this.1
    rw [jacGrad_getD pts cells cc vols hdist hi']
    rfl
  · intro i hb hmem
    have := (List.mem_filter.mp hmem).2
    rw [hb] at this
    simp at this

/-- Witness for C5: a single triangle over three points with
circumcenter `(5, 5)` and volume 1. -/
theorem C5_jac_witness :
    (∀ c ∈ ([(0, 1, 2)] : List Cell),
      cellA c ≠ cellB c ∧ cellB c ≠ cellC c ∧ cellA c ≠ cellC c) ∧
    x0Vec [((0 : ℝ), (0 : ℝ)), (2, 0), (0, 2)] [(0, 1, 2)] =
      ((interiorIdx ([((0 : ℝ), (0 : ℝ)), (2, 0), (0, 2)] : List Pt).length
        [(0, 1, 2)]).flatMap fun i =>
          [(([((0 : ℝ), (0 : ℝ)), (2, 0), (0, 2)] : List Pt).getD i 0).1,
           (([((0 : ℝ), (0 : ℝ)), (2, 0), (0, 2)] : List Pt).getD i 0).2]) := by
  have hdist : ∀ c ∈ ([(0, 1, 2)] : List Cell),
      cellA c ≠ cellB c ∧ cellB c ≠ cellC c ∧ cellA c ≠ cellC c := by decide
  exact ⟨hdist,
    (C5_jac [((0 : ℝ), (0 : ℝ)), (2, 0), (0, 2)] [(0, 1, 2)] [(5, 5)] [1] hdist).2.1⟩

/-! ### C4: non-negativity of the ODT energy -/

theorem cellVolume_nonneg (a b c : Pt) : 0 ≤ cellVolume a b c :=
  div_nonneg (abs_nonneg _) (by norm_num)

theorem quadSum_le (a b c : Pt) :
    norm2 (midPt a b) + norm2 (midPt b c) + norm2 (midPt c a) ≤
      norm2 a + norm2 b + norm2 c := by
  unfold norm2 midPt
  dsimp only
  nlinarith [sq_nonneg (a.1 - b.1), sq_nonneg (a.2 - b.2), sq_nonneg (b.1 - c.1),
    sq_nonneg (b.2 - c.2), sq_nonneg (a.1 - c.1), sq_nonneg (a.2 - c.2)]

theorem quadSq_le (a b c : Pt) :
    quadSq a b c ≤ 1 / 3 * (cellVolume a b c * (norm2 a + norm2 b + norm2 c)) := by
  unfold quadSq
  have hS := quadSum_le a b c
  have hv := cellVolume_nonneg a b c
  have hm := mul_le_mul_of_nonneg_left hS hv
  nlinarith [hm]

theorem quadSq_div_le (a b c : Pt) (h : 0 < cellVolume a b c) :
    quadSq a b c * (1 / cellVolume a b c) ≤ 1 / 3 * (1 * (norm2 a + norm2 b + norm2 c)) := by
  have hne : cellVolume a b c ≠ 0 := ne_of_gt h
  have heq : quadSq a b c * (1 / cellVolume a b c) =
      (norm2 (midPt a b) + norm2 (midPt b c) + norm2 (midPt c a)) / 3 := by
    unfold quadSq
    field_simp
    ring
  rw [heq]
  have hS := quadSum_le a b c
  linarith

theorem triple_dot (pts : List Pt) (cells : List Cell) (vals : List ℝ)
    (hv : vals.length = cells.length)
    (hidx : ∀ c ∈ cells, cellA c < pts.length ∧ cellB c < pts.length ∧ cellC c < pts.length) :
    ((List.range pts.length).map fun p =>
      (listAdd
        (listAdd (bincountM pts.length (cells.map cellA) vals)
          (bincountM pts.length (cells.map cellB) vals))
        (bincountM pts.length (cells.map cellC) vals)).getD p 0 * norm2 (pts.getD p 0)).sum =
    ((List.range cells.length).map fun j =>
      vals.getD j 0 *
        (norm2 (pts.getD (cellA (cells.getD j (0, 0, 0))) 0) +
         norm2 (pts.getD (cellB (cells.getD j (0, 0, 0))) 0) +
         norm2 (pts.getD (cellC (cells.getD j (0, 0, 0))) 0))).sum := by
  have hstep : ((List.range pts.length).map fun p =>
      (listAdd
        (listAdd (bincountM pts.length (cells.map cellA) vals)
          (bincountM pts.length (cells.map cellB) vals))
        (bincountM pts.length (cells.map cellC) vals)).getD p 0 * norm2 (pts.getD p 0)) =
      (List.range pts.length).map fun p =>
        (bincountM pts.length (cells.map cellA) vals).getD p 0 * norm2 (pts.getD p 0) +
        (bincountM pts.length (cells.map cellB) vals).getD p 0 * norm2 (pts.getD p 0) +
        (bincountM pts.length (cells.map cellC) vals).getD p 0 * norm2 (pts.getD p 0) := by
    apply List.map_congr_left
    intro p hp
    have hp' : p < pts.length := List.mem_range.mp hp
    have h1 : p < (listAdd (bincountM pts.length (cells.map cellA) vals)
        (bincountM pts.length (cells.map cellB) vals)).length := by
      rw [length_listAdd, length_bincountM, length_bincountM, min_self]; exact hp'
    have h2 : p < (bincountM pts.length (cells.map cellC) vals).length := by
      rw [length_bincountM]; exact hp'
    have h3 : p < (bincountM pts.length (cells.map cellA) vals).length := by
      rw [length_bincountM]; exact hp'
    have h4 : p < (bincountM pts.length (cells.map cellB) vals).length := by
      rw [length_bincountM]; exact hp'
    rw [getD_listAdd h1 h2, getD_listAdd h3 h4, add_mul, add_mul]
  have hcol : ∀ col : Cell → ℕ, (∀ c ∈ cells, col c < pts.length) →
      ((List.range pts.length).map fun p =>
        (bincountM pts.length (cells.map col) vals).getD p 0 * norm2 (pts.getD p 0)).sum =
      ((List.range cells.length).map fun j =>
        vals.getD j 0 * norm2 (pts.getD (col (cells.getD j (0, 0, 0))) 0)).sum := by
    intro col hcol'
    have hidx' : ∀ j < (cells.map col).length, (cells.map col).getD j 0 < pts.length := by
      intro j hj
      rw [List.length_map] at hj
      rw [getD_map_lt col hj 0 (0, 0, 0)]
      exact hcol' _ (getD_mem_of_lt hj (0, 0, 0))
    rw [bincount_dot (fun p => norm2 (pts.getD p 0)) (by simp [hv]) hidx', List.length_map]
    congr 1
    apply List.map_congr_left
    intro j hj
    rw [getD_map_lt col (List.mem_range.mp hj) 0 (0, 0, 0)]
  rw [hstep, sum_map_addf, sum_map_addf,
    hcol cellA (fun c hc => (hidx c hc).1),
    hcol cellB (fun c hc => (hidx c hc).2.1),
    hcol cellC (fun c hc => (hidx c hc).2.2),
    ← sum_map_addf, ← sum_map_addf]
  congr 1
  apply List.map_congr_left
  intro j _
  ring

/-- C4.  On a mesh whose cells all have positive volume (and whose cell
indices are in range), in both density modes the linear term
`1/(d+1) * dot(star_volume, ||x||^2)` of the ODT energy dominates the
quadrature integral term, so the `assert out >= val` of
`optimesh.odt.energy` never fails and the returned energy is
non-negative. -/
theorem C4_energy (pts : List Pt) (cells : List Cell) (uniform : Bool)
    (hidx : ∀ c ∈ cells, cellA c < pts.length ∧ cellB c < pts.length ∧ cellC c < pts.length)
    (hvol : ∀ c ∈ cells, 0 < volOf pts c) :
    energyQuadTerm pts cells uniform ≤ energyLinearTerm pts cells uniform ∧
    0 ≤ energyODT pts cells uniform := by
  have main : energyQuadTerm pts cells uniform ≤ energyLinearTerm pts cells uniform := by
    cases uniform with
    | true =>
        have hsv : starVolume pts cells true =
            listAdd
              (listAdd (bincountM pts.length (cells.map cellA) (cellVols pts cells))
                (bincountM pts.length (cells.map cellB) (cellVols pts cells)))
              (bincountM pts.length (cells.map cellC) (cellVols pts cells)) := rfl
        have hqt : energyQuadTerm pts cells true = (cells.map (quadOf pts)).sum := rfl
        unfold energyLinearTerm
        rw [hqt, hsv, triple_dot pts cells (cellVols pts cells) (by simp [cellVols]) hidx,
          map_sum_to_range cells (quadOf pts) (0, 0, 0), ← List.sum_map_mul_left]
        apply List.sum_le_sum
        intro j hj
        have hj' : j < cells.length := List.mem_range.mp hj
        have hmem : cells.getD j (0, 0, 0) ∈ cells := getD_mem_of_lt hj' (0, 0, 0)
        have hcv : (cellVols pts cells).getD j 0 = volOf pts (cells.getD j (0, 0, 0)) := by
          unfold cellVols
          exact getD_map_lt (volOf pts) hj' 0 (0, 0, 0)
        rw [hcv]
        exact quadSq_le _ _ _
    | false =>
        have hsv : starVolume pts cells false =
            listAdd
              (listAdd (bincountM pts.length (cells.map cellA) (cells.map fun _ => (1 : ℝ)))
                (bincountM pts.length (cells.map cellB) (cells.map fun _ => (1 : ℝ))))
              (bincountM pts.length (cells.map cellC) (cells.map fun _ => (1 : ℝ))) := rfl
        have hqt : energyQuadTerm pts cells false =
            (cells.map fun c => quadOf pts c * (1 / volOf pts c)).sum := rfl
        unfold energyLinearTerm
        rw [hqt, hsv, triple_dot pts cells (cells.map fun _ => (1 : ℝ)) (by simp) hidx,
          map_sum_to_range cells (fun c => quadOf pts c * (1 / volOf pts c)) (0, 0, 0),
          ← List.sum_map_mul_left]
        apply List.sum_le_sum
        intro j hj
        have hj' : j < cells.length := List.mem_range.mp hj
        have hmem : cells.getD j (0, 0, 0) ∈ cells := getD_mem_of_lt hj' (0, 0, 0)
        have h1 : ((cells.map fun _ => (1 : ℝ)).getD j 0) = 1 :=
          getD_map_lt (fun _ => (1 : ℝ)) hj' 0 (0, 0, 0)
        rw [h1]
        exact quadSq_div_le _ _ _ (hvol _ hmem)
  exact ⟨main, by unfold energyODT; linarith⟩

/-- Witness for C4: the unit right triangle, both density modes checked
through the uniform one. -/
theorem C4_energy_witness :
    (∀ c ∈ ([(0, 1, 2)] : List Cell),
      cellA c < ([((0 : ℝ), (0 : ℝ)), (1, 0), (0, 1)] : List Pt).length ∧
      cellB c < ([((0 : ℝ), (0 : ℝ)), (1, 0), (0, 1)] : List Pt).length ∧
      cellC c < ([((0 : ℝ), (0 : ℝ)), (1, 0), (0, 1)] : List Pt).length) ∧
    (∀ c ∈ ([(0, 1, 2)] : List Cell),
      0 < volOf [((0 : ℝ), (0 : ℝ)), (1, 0), (0, 1)] c) ∧
    0 ≤ energyODT [((0 : ℝ), (0 : ℝ)), (1, 0), (0, 1)] [(0, 1, 2)] true := by
  have hidx : ∀ c ∈ ([(0, 1, 2)] : List Cell),
      cellA c < ([((0 : ℝ), (0 : ℝ)), (1, 0), (0, 1)] : List Pt).length ∧
      cellB c < ([((0 : ℝ), (0 : ℝ)), (1, 0), (0, 1)] : List Pt).length ∧
      cellC c < ([((0 : ℝ), (0 : ℝ)), (1, 0), (0, 1)] : List Pt).length := by
    intro c hc
    rcases List.mem_singleton.mp hc with rfl
    refine ⟨?_, ?_, ?_⟩ <;> simp [cellA, cellB, cellC]
  have hvol : ∀ c ∈ ([(0, 1, 2)] : List Cell),
      0 < volOf [((0 : ℝ), (0 : ℝ)), (1, 0), (0, 1)] c := by
    intro c hc
    rcases List.mem_singleton.mp hc with rfl
    unfold volOf cellVolume cellA cellB cellC
    norm_num
  exact ⟨hidx, hvol,
    (C4_energy [((0 : ℝ), (0 : ℝ)), (1, 0), (0, 1)] [(0, 1, 2)] true hidx hvol).2⟩

/-! ### C3: boundary points never move under the ODT fixed-point rules -/

theorem clampDiffAt_zero (ms : Option ℝ) : clampDiffAt (0 : Pt) ms = 0 := by
  cases ms with
  | none => rfl
  | some b =>
      show (if Real.sqrt (norm2 (0 : Pt)) > b
        then (b / Real.sqrt (norm2 (0 : Pt))) • (0 : Pt) else (0 : Pt)) = 0
      by_cases h : Real.sqrt (norm2 (0 : Pt)) > b
      · rw [if_pos h, smul_zero]
      · rw [if_neg h]

theorem applyBoundary_none_getD (m : MeshState) (X : List Pt) {i : ℕ}
    (hi : i < m.points.length) (hb : isBoundaryPt m.cells i = true) :
    (applyBoundary none m X).getD i 0 = m.points.getD i 0 := by
  unfold applyBoundary
  rw [getD_range_map _ _ hi]
  simp [hb]

theorem C3_step (ops : MeshOps) (hL : LawfulOps ops) (gnp : GNP)
    (hg : gnp = odtUniformGNP ops none ∨ gnp = odtDPGNP ops none) (omega : ℝ) (m : MeshState) :
    (stepMesh ops gnp omega m).points.length = m.points.length ∧
    (∀ i, isBoundaryPt (stepMesh ops gnp omega m).cells i = isBoundaryPt m.cells i) ∧
    (∀ i, i < m.points.length → isBoundaryPt m.cells i = true →
      (stepMesh ops gnp omega m).points.getD i 0 = m.points.getD i 0) ∧
    (∀ i, i < m.points.length → isBoundaryPt m.cells i = true →
      (stepDiff ops gnp omega m).getD i 0 = 0) := by
  have hm1p : (gnp m).2.points = m.points := by
    rcases hg with rfl | rfl <;> rfl
  have hm1c : (gnp m).2.cells = m.cells := by
    rcases hg with rfl | rfl <;> rfl
  have hXb : ∀ i, i < m.points.length → isBoundaryPt m.cells i = true →
      (gnp m).1.getD i 0 = m.points.getD i 0 := by
    intro i hi hb
    rcases hg with rfl | rfl
    · exact applyBoundary_none_getD m _ hi hb
    · exact applyBoundary_none_getD m _ hi hb
  have hdiff : ∀ i, i < m.points.length → isBoundaryPt m.cells i = true →
      (stepDiff ops gnp omega m).getD i 0 = 0 := by
    intro i hi hb
    unfold stepDiff
    rw [getD_range_map _ _ (by rw [hm1p]; exact hi)]
    rw [hXb i hi hb, hm1p, sub_self, smul_zero]
    exact clampDiffAt_zero _
  have hpre : (stepMesh ops gnp omega m).points = prePoints ops gnp omega m := by
    unfold stepMesh
    rw [hL.flip_points]
    rfl
  have hlen : (stepMesh ops gnp omega m).points.length = m.points.length := by
    rw [hpre]
    unfold prePoints
    rw [List.length_map, List.length_range, hm1p]
  refine ⟨hlen, ?_, ?_, hdiff⟩
  · intro i
    have hcells : (updateValues ops { (gnp m).2 with points := prePoints ops gnp omega m }).cells =
        m.cells := by
      rw [← hm1c]; rfl
    unfold stepMesh
    rw [hL.flip_boundary, hcells]
  · intro i hi hb
    rw [hpre]
    unfold prePoints
    rw [getD_range_map _ _ (by rw [hm1p]; exact hi), hdiff i hi hb, hm1p, add_zero]

/-- C3.  With the ODT fixed-point rules (either density mode), no
boundary-projection function and no implicit surface, a boundary point
of the initial mesh stays a boundary point, its per-iteration clamped
displacement is exactly zero, and after any number of runner iterations
its coordinates equal its initial coordinates, exactly. -/
theorem C3_boundary_fixed (ops : MeshOps) (hL : LawfulOps ops) (gnp : GNP)
    (hg : gnp = odtUniformGNP ops none ∨ gnp = odtDPGNP ops none) (omega : ℝ)
    (m0 : MeshState) :
    ∀ n i, i < m0.points.length → isBoundaryPt m0.cells i = true →
      isBoundaryPt (meshOrbit ops gnp omega m0 n).cells i = true ∧
      (meshOrbit ops gnp omega m0 n).points.getD i 0 = m0.points.getD i 0 ∧
      (stepDiff ops gnp omega (meshOrbit ops gnp omega m0 n)).getD i 0 = 0 := by
  have hinv : ∀ n, (meshOrbit ops gnp omega m0 n).points.length = m0.points.length ∧
      (∀ i, isBoundaryPt (meshOrbit ops gnp omega m0 n).cells i = isBoundaryPt m0.cells i) ∧
      (∀ i, i < m0.points.length → isBoundaryPt m0.cells i = true →
        (meshOrbit ops gnp omega m0 n).points.getD i 0 = m0.points.getD i 0) := by
    intro n
    induction n with
    | zero =>
        refine ⟨by unfold meshOrbit; rw [Function.iterate_zero_apply, hL.flip_points], ?_, ?_⟩
        · intro i
          unfold meshOrbit
          rw [Function.iterate_zero_apply, hL.flip_boundary]
        · intro i hi hb
          unfold meshOrbit
          rw [Function.iterate_zero_apply, hL.flip_points]
    | succ n ih =>
        rcases ih with ⟨ihlen, ihb, ihpts⟩
        have horb : meshOrbit ops gnp omega m0 (n + 1) =
            stepMesh ops gnp omega (meshOrbit ops gnp omega m0 n) := by
          unfold meshOrbit
          rw [Function.iterate_succ_apply']
        rcases C3_step ops hL gnp hg omega (meshOrbit ops gnp omega m0 n) with
          ⟨slen, sbnd, spts, _⟩
        refine ⟨?_, ?_, ?_⟩
        · rw [horb, slen, ihlen]
        · intro i
          rw [horb, sbnd i, ihb i]
        · intro i hi hb
          rw [horb, spts i (by rw [ihlen]; exact hi) (by rw [ihb i]; exact hb), ihpts i hi hb]
  intro n i hi hb
  rcases hinv n with ⟨hlen, hbnd, hpts⟩
  refine ⟨by rw [hbnd i]; exact hb, hpts i hi hb, ?_⟩
  rcases C3_step ops hL gnp hg omega (meshOrbit ops gnp omega m0 n) with ⟨_, _, _, sdiff⟩
  exact sdiff i (by rw [hlen]; exact hi) (by rw [hbnd i]; exact hb)

/-- Witness for C3: the uniform ODT rule on a single triangle, all of
whose points are boundary points, after one iteration. -/
theorem C3_boundary_fixed_witness :
    LawfulOps trivOps ∧
    isBoundaryPt [((0 : ℕ), (1 : ℕ), (2 : ℕ))] 0 = true ∧
    (meshOrbit trivOps (odtUniformGNP trivOps none) 1
        (MeshState.mk [((0 : ℝ), (0 : ℝ)), (1, 0), (0, 1)] [(0, 1, 2)] [(5, 5)]) 1).points.getD
        0 0 =
      (MeshState.mk [((0 : ℝ), (0 : ℝ)), (1, 0), (0, 1)] [(0, 1, 2)] [(5, 5)]).points.getD 0 0 := by
  have hL : LawfulOps trivOps := by
    refine ⟨fun m => rfl, fun m i => rfl, fun m m' hp hc => ?_⟩
    simp [trivOps, hc]
  have hb : isBoundaryPt [((0 : ℕ), (1 : ℕ), (2 : ℕ))] 0 = true := by decide
  exact ⟨hL, hb,
    (C3_boundary_fixed trivOps hL (odtUniformGNP trivOps none) (Or.inl rfl) 1
      (MeshState.mk [((0 : ℝ), (0 : ℝ)), (1, 0), (0, 1)] [(0, 1, 2)] [(5, 5)]) 1 0
      (by simp) hb).2.1⟩

/-! ### C2: the runner's exit condition and iteration count -/

theorem runnerStepCore_none (ops : MeshOps) (gnp : GNP) (omega stol : ℝ) (pfuel : ℕ)
    (m : MeshState) :
    runnerStepCore ops gnp omega none stol pfuel m =
      some (stepMesh ops gnp omega m, stepDiff ops gnp omega m) := rfl

open Classical in
theorem runnerLoop_succ_eq (ops : MeshOps) (gnp : GNP) (tol omega : ℝ) (cap : Option ℕ)
    (stol : ℝ) (pfuel fuel k : ℕ) (m : MeshState) :
    runnerLoop ops gnp tol omega cap none stol pfuel (fuel + 1) k m =
      if (∀ d ∈ stepDiff ops gnp omega m, norm2 d < tol ^ 2) ∨ capReached cap (k + 1) then
        some (k + 1, maxD ((stepDiff ops gnp omega m).map fun d => Real.sqrt (norm2 d)))
      else runnerLoop ops gnp tol omega cap none stol pfuel fuel (k + 1)
        (stepMesh ops gnp omega m) := rfl

theorem runnerLoop_zero_eq (ops : MeshOps) (gnp : GNP) (tol omega : ℝ) (cap : Option ℕ)
    (stol : ℝ) (pfuel k : ℕ) (m : MeshState) :
    runnerLoop ops gnp tol omega cap none stol pfuel 0 k m = none := rfl

theorem runnerLoop_count_lt (ops : MeshOps) (gnp : GNP) (tol omega : ℝ) (cap : Option ℕ)
    (stol : ℝ) (pfuel : ℕ) :
    ∀ (fuel k : ℕ) (m : MeshState) (K : ℕ) (r : ℝ),
      runnerLoop ops gnp tol omega cap none stol pfuel fuel k m = some (K, r) → k < K := by
  intro fuel
  induction fuel with
  | zero =>
      intro k m K r h
      rw [runnerLoop_zero_eq] at h
      cases h
  | succ fuel ih =>
      intro k m K r h
      rw [runnerLoop_succ_eq] at h
      by_cases hc : (∀ d ∈ stepDiff ops gnp omega m, norm2 d < tol ^ 2) ∨ capReached cap (k + 1)
      · rw [if_pos hc] at h
        simp only [Option.some.injEq, Prod.mk.injEq] at h
        omega
      · rw [if_neg hc] at h
        have := ih (k + 1) (stepMesh ops gnp omega m) K r h
        omega

theorem stepMesh_points (ops : MeshOps) (hL : LawfulOps ops) (gnp : GNP) (omega : ℝ)
    (m : MeshState) :
    (stepMesh ops gnp omega m).points = prePoints ops gnp omega m := by
  unfold stepMesh
  rw [hL.flip_points]
  rfl

theorem prePoints_length (ops : MeshOps) (gnp : GNP) (omega : ℝ) (m : MeshState) :
    (prePoints ops gnp omega m).length = (gnp m).2.points.length := by
  unfold prePoints
  simp

theorem stepDiff_length (ops : MeshOps) (gnp : GNP) (omega : ℝ) (m : MeshState) :
    (stepDiff ops gnp omega m).length = (gnp m).2.points.length := by
  unfold stepDiff
  simp

theorem meshOrbit_length (ops : MeshOps) (hL : LawfulOps ops) (gnp : GNP)
    (hglen : ∀ m, ((gnp m).2).points.length = m.points.length) (omega : ℝ) (m0 : MeshState) :
    ∀ t, (meshOrbit ops gnp omega m0 t).points.length = m0.points.length := by
  intro t
  induction t with
  | zero =>
      unfold meshOrbit
      rw [Function.iterate_zero_apply, hL.flip_points]
  | succ t ih =>
      have horb : meshOrbit ops gnp omega m0 (t + 1) =
          stepMesh ops gnp omega (meshOrbit ops gnp omega m0 t) := by
        unfold meshOrbit
        rw [Function.iterate_succ_apply']
      rw [horb, stepMesh_points ops hL gnp omega, prePoints_length, hglen, ih]

theorem stepDiff_orbit_ne_nil (ops : MeshOps) (hL : LawfulOps ops) (gnp : GNP)
    (hglen : ∀ m, ((gnp m).2).points.length = m.points.length) (omega : ℝ) (m0 : MeshState)
    (hne : m0.points ≠ []) (t : ℕ) :
    stepDiff ops gnp omega (meshOrbit ops gnp omega m0 t) ≠ [] := by
  have hlen : (stepDiff ops gnp omega (meshOrbit ops gnp omega m0 t)).length =
      m0.points.length := by
    rw [stepDiff_length, hglen, meshOrbit_length ops hL gnp hglen omega m0 t]
  intro hcon
  rw [hcon] at hlen
  simp only [List.length_nil] at hlen
  exact hne (List.length_eq_zero.mp hlen.symm)

theorem maxD_sqrt_lt {tol : ℝ} (htol : 0 < tol) {l : List Pt} (hne : l ≠ []) :
    maxD (l.map fun d => Real.sqrt (norm2 d)) < tol ↔ ∀ d ∈ l, norm2 d < tol ^ 2 := by
  rw [maxD_lt_iff (by simpa using hne)]
  constructor
  · intro h d hd
    exact (Real.sqrt_lt' htol).mp (h _ (List.mem_map_of_mem _ hd))
  · intro h x hx
    rcases List.mem_map.mp hx with ⟨d, hd, rfl⟩
    exact (Real.sqrt_lt' htol).mpr (h d hd)

theorem runnerLoop_runs (ops : MeshOps) (gnp : GNP) (tol omega : ℝ) (cap : Option ℕ)
    (stol : ℝ) (pfuel : ℕ) (m0 : MeshState) (K : ℕ)
    (hexit : (∀ d ∈ stepDiff ops gnp omega (meshOrbit ops gnp omega m0 (K - 1)),
        norm2 d < tol ^ 2) ∨ capReached cap K)
    (hnot : ∀ j, 1 ≤ j → j < K →
      ¬((∀ d ∈ stepDiff ops gnp omega (meshOrbit ops gnp omega m0 (j - 1)),
          norm2 d < tol ^ 2) ∨ capReached cap j)) :
    ∀ (fuel a : ℕ), a < K → K - a ≤ fuel →
      runnerLoop ops gnp tol omega cap none stol pfuel fuel a (meshOrbit ops gnp omega m0 a) =
        some (K, maxD ((stepDiff ops gnp omega (meshOrbit ops gnp omega m0 (K - 1))).map
          fun d => Real.sqrt (norm2 d))) := by
  intro fuel
  induction fuel with
  | zero =>
      intro a ha hf
      omega
  | succ fuel ih =>
      intro a ha hf
      rw [runnerLoop_succ_eq]
      by_cases hKa : a + 1 = K
      · have ha1 : K - 1 = a := by omega
        have hcond : (∀ d ∈ stepDiff ops gnp omega (meshOrbit ops gnp omega m0 a),
            norm2 d < tol ^ 2) ∨ capReached cap (a + 1) := by
          rw [← ha1, show K - 1 + 1 = K by omega]
          exact hexit
        rw [if_pos hcond, hKa, ha1]
      · have ha2 : a + 1 < K := by omega
        have hncond := hnot (a + 1) (by omega) ha2
        rw [Nat.add_sub_cancel] at hncond
        rw [if_neg hncond]
        have horb : stepMesh ops gnp omega (meshOrbit ops gnp omega m0 a) =
            meshOrbit ops gnp omega m0 (a + 1) := by
          unfold meshOrbit
          rw [Function.iterate_succ_apply']
        rw [horb]
        exact ih (a + 1) ha2 (by omega)

/-- C2.  The runner's loop exits at the end of iteration `k + 1`
exactly when every clamped squared displacement is strictly below
`tol ^ 2` or `k + 1` has reached the cap (an OR); hence with `tol = 0`,
a finite cap `n >= 1` and a nonempty point set it performs exactly `n`
iterations, and with `tol > 0` and no cap it stops at the first
iteration whose maximum per-point displacement norm drops below `tol`;
in both cases it returns the iteration count paired with the maximum
per-point displacement norm of the final iteration. -/
theorem C2_runner_termination (ops : MeshOps) (hL : LawfulOps ops) (gnp : GNP)
    (hglen : ∀ m, ((gnp m).2).points.length = m.points.length)
    (omega stol : ℝ) (pfuel : ℕ) (m0 : MeshState) (hne : m0.points ≠ []) :
    (∀ (tol : ℝ) (cap : Option ℕ) (fuel k : ℕ) (m : MeshState),
      (∃ r, runnerLoop ops gnp tol omega cap none stol pfuel (fuel + 1) k m =
        some (k + 1, r)) ↔
      ((∀ d ∈ stepDiff ops gnp omega m, norm2 d < tol ^ 2) ∨ capReached cap (k + 1))) ∧
    (∀ n fuel, 1 ≤ n → n ≤ fuel →
      runner ops gnp 0 omega (some n) none stol pfuel fuel m0 =
        some (n, maxD ((stepDiff ops gnp omega (meshOrbit ops gnp omega m0 (n - 1))).map
          fun d => Real.sqrt (norm2 d)))) ∧
    (∀ (tol : ℝ) (K fuel : ℕ), 0 < tol → 1 ≤ K → K ≤ fuel →
      maxD ((stepDiff ops gnp omega (meshOrbit ops gnp omega m0 (K - 1))).map
        fun d => Real.sqrt (norm2 d)) < tol →
      (∀ j, 1 ≤ j → j < K →
        ¬ maxD ((stepDiff ops gnp omega (meshOrbit ops gnp omega m0 (j - 1))).map
          fun d => Real.sqrt (norm2 d)) < tol) →
      runner ops gnp tol omega none none stol pfuel fuel m0 =
        some (K, maxD ((stepDiff ops gnp omega (meshOrbit ops gnp omega m0 (K - 1))).map
          fun d => Real.sqrt (norm2 d)))) := by
  have horb0 : meshOrbit ops gnp omega m0 0 = ops.flip m0 := by
    unfold meshOrbit
    rw [Function.iterate_zero_apply]
  refine ⟨?_, ?_, ?_⟩
  · intro tol cap fuel k m
    constructor
    · rintro ⟨r, hr⟩
      by_cases hc : (∀ d ∈ stepDiff ops gnp omega m, norm2 d < tol ^ 2) ∨
          capReached cap (k + 1)
      · exact hc
      · rw [runnerLoop_succ_eq, if_neg hc] at hr
        have := runnerLoop_count_lt ops gnp tol omega cap stol pfuel fuel (k + 1)
          (stepMesh ops gnp omega m) (k + 1) r hr
        omega
    · intro hc
      refine ⟨maxD ((stepDiff ops gnp omega m).map fun d => Real.sqrt (norm2 d)), ?_⟩
      rw [runnerLoop_succ_eq, if_pos hc]
  · intro n fuel hn hfuel
    have hexit : (∀ d ∈ stepDiff ops gnp omega (meshOrbit ops gnp omega m0 (n - 1)),
        norm2 d < (0 : ℝ) ^ 2) ∨ capReached (some n) n := by
      right
      exact le_refl n
    have hnot : ∀ j, 1 ≤ j → j < n →
        ¬((∀ d ∈ stepDiff ops gnp omega (meshOrbit ops gnp omega m0 (j - 1)),
            norm2 d < (0 : ℝ) ^ 2) ∨ capReached (some n) j) := by
      rintro j h1 hj (hall | hcap)
      · rcases List.exists_mem_of_ne_nil _
          (stepDiff_orbit_ne_nil ops hL gnp hglen omega m0 hne (j - 1)) with ⟨d, hd⟩
        have := hall d hd
        have h0 : ((0 : ℝ)) ^ 2 = 0 := by norm_num
        rw [h0] at this
        exact absurd this (not_lt.mpr (norm2_nonneg d))
      · exact absurd hcap (by simp [capReached]; omega)
    have := runnerLoop_runs ops gnp 0 omega (some n) stol pfuel m0 n hexit hnot fuel 0
      (by omega) (by omega)
    rw [horb0] at this
    exact this
  · intro tol K fuel htol hK hfuel hstop hnot
    have hexit : (∀ d ∈ stepDiff ops gnp omega (meshOrbit ops gnp omega m0 (K - 1)),
        norm2 d < tol ^ 2) ∨ capReached (none : Option ℕ) K := by
      left
      exact (maxD_sqrt_lt htol
        (stepDiff_orbit_ne_nil ops hL gnp hglen omega m0 hne (K - 1))).mp hstop
    have hnot' : ∀ j, 1 ≤ j → j < K →
        ¬((∀ d ∈ stepDiff ops gnp omega (meshOrbit ops gnp omega m0 (j - 1)),
            norm2 d < tol ^ 2) ∨ capReached (none : Option ℕ) j) := by
      rintro j h1 hj (hall | hcap)
      · exact hnot j h1 hj ((maxD_sqrt_lt htol
          (stepDiff_orbit_ne_nil ops hL gnp hglen omega m0 hne (j - 1))).mpr hall)
      · exact hcap
    have := runnerLoop_runs ops gnp tol omega none stol pfuel m0 K hexit hnot' fuel 0
      (by omega) (by omega)
    rw [horb0] at this
    exact this

/-- Witness for C2: the identity rule on a one-point mesh, tolerance 0,
cap 1. -/
theorem C2_runner_termination_witness :
    LawfulOps trivOps ∧
    (MeshState.mk [((0 : ℝ), (0 : ℝ))] [] []).points ≠ [] ∧
    runner trivOps gnpId 0 1 (some 1) none 0 0 1
        (MeshState.mk [((0 : ℝ), (0 : ℝ))] [] []) =
      some (1, maxD ((stepDiff trivOps gnpId 1
        (meshOrbit trivOps gnpId 1 (MeshState.mk [((0 : ℝ), (0 : ℝ))] [] []) 0)).map
          fun d => Real.sqrt (norm2 d))) := by
  have hL : LawfulOps trivOps := by
    refine ⟨fun m => rfl, fun m i => rfl, fun m m' hp hc => ?_⟩
    simp [trivOps, hc]
  have hne : (MeshState.mk [((0 : ℝ), (0 : ℝ))] [] []).points ≠ [] := by
    simp
  exact ⟨hL, hne,
    (C2_runner_termination trivOps hL gnpId (fun m => rfl) 1 0 0
      (MeshState.mk [((0 : ℝ), (0 : ℝ))] [] []) hne).2.1 1 1 le_rfl le_rfl⟩
